import Mathlib

/-!
Shallow embedding of the SimFOL similarity engine
(`src/SimFOL_appariement.ipynb`, cell 0).

Python floats are modelled as rationals (`ℚ`), Python dicts as association
lists with first-match lookup (Python dicts have unique keys, so this agrees
with `dict.get`), Python frozensets of literals/clauses as the lists over
which the code iterates, and Python exceptions (`ValueError` from `max` on an
empty sequence, `AttributeError` from `None.get`) as an `Except` error type.
The SBERT-backed atomic similarity `sim_sbert_normalized` is an external
capability and is passed in as a function parameter `simC`.
The Tversky power `p` is a natural number (the code and all examples use
`p = 1`); aggregation functions are passed as `List ℚ → ℚ` values, exactly as
the Python code passes callables.
-/

namespace SimFOL

/-- A literal `(predicate, args)`: Python `Tuple[str, Tuple[str, ...]]`. -/
abbrev Literal := String × List String

/-- A clause: Python `FrozenSet[Literal]`, modelled as the list of its
elements in iteration order. -/
abbrev Clause := List Literal

/-- A formula: a collection of clauses. -/
abbrev Formula := List Clause

/-- Python `d.get(k, default)` on an association list (first match wins;
Python dicts have unique keys so this is faithful). -/
def getD {α : Type} [DecidableEq α] (d : List (α × ℚ)) (k : α) (dflt : ℚ) : ℚ :=
  match d with
  | [] => dflt
  | kv :: rest => if kv.1 = k then kv.2 else getD rest k dflt

/-- Python `sum(d.values())`. -/
def sumValues {α : Type} (d : List (α × ℚ)) : ℚ :=
  (d.map (fun kv => kv.2)).sum

/-- Python `{**d1, **d2}`: entries of `d2` win on shared keys.  With
first-match lookup this is `d2 ++ d1`. -/
def mergeDicts {α : Type} (d1 d2 : List (α × ℚ)) : List (α × ℚ) :=
  d2 ++ d1

/-- `agg_max(scores) = max(scores) if scores else 0.0`. -/
def agg_max (scores : List ℚ) : ℚ :=
  match scores with
  | [] => 0
  | s :: rest => rest.foldl max s

/-- `agg_avg(scores) = sum(scores)/len(scores) if scores else 0.0`. -/
def agg_avg (scores : List ℚ) : ℚ :=
  match scores with
  | [] => 0
  | _ :: _ => scores.sum / scores.length

/-- Positional accumulator of `pointwise_similarity_weighted`: the loop
`for i in range(min_len)` accumulating `(sim_pos, total_weight_pos)`;
`zip` truncates to the shorter list exactly like `range(min_len)`. -/
def posAccum (simC : String → String → ℚ) (weights1 weights2 : List (String × ℚ))
    (args1 args2 : List String) : ℚ × ℚ :=
  (args1.zip args2).foldl
    (fun acc pr =>
      let sim := simC pr.1 pr.2
      let importance := getD weights1 pr.1 0 * getD weights2 pr.2 0
      (acc.1 + importance * sim, acc.2 + importance))
    (0, 0)

/-- Inner loop of the unordered component: for a fixed `a1`, scan `args2`
keeping `(best_sim, best_imp)`, updating on strict improvement only. -/
def bestMatchFold (simC : String → String → ℚ) (w1 : ℚ)
    (weights2 : List (String × ℚ)) (a1 : String) (args2 : List String) : ℚ × ℚ :=
  args2.foldl
    (fun b a2 =>
      let sim := simC a1 a2
      let importance := w1 * getD weights2 a2 0
      if sim > b.1 then (sim, importance) else b)
    (0, 0)

/-- Unordered accumulator of `pointwise_similarity_weighted`: the loop over
`args1` accumulating `(sim_unordered, total_weight_unordered)`. -/
def unordAccum (simC : String → String → ℚ) (weights1 weights2 : List (String × ℚ))
    (args1 args2 : List String) : ℚ × ℚ :=
  args1.foldl
    (fun acc a1 =>
      let best := bestMatchFold simC (getD weights1 a1 0) weights2 a1 args2
      (acc.1 + best.1 * best.2, acc.2 + best.2))
    (0, 0)

/-- `pointwise_similarity_weighted` (source lines 54–94): blends an
importance-weighted positional alignment with a best-match unordered
alignment; each component is normalized by `(mass + diff)` only when its raw
mass is `> 0`, else contributes `0.0`; empty argument list on either side
gives `0.0`. -/
def pointwise_similarity_weighted (args1 args2 : List String)
    (simC : String → String → ℚ) (weights1 weights2 : List (String × ℚ))
    (positional_weight unordered_weight diff : ℚ) : ℚ :=
  if args1.isEmpty || args2.isEmpty then 0
  else
    let pos := posAccum simC weights1 weights2 args1 args2
    let sim_pos := if pos.2 > 0 then pos.1 / (pos.2 + diff) else 0
    let unord := unordAccum simC weights1 weights2 args1 args2
    let sim_unordered := if unord.2 > 0 then unord.1 / (unord.2 + diff) else 0
    positional_weight * sim_pos + unordered_weight * sim_unordered

/-- `{k: 1.0 for k in args}`: the uniform weight map of `simLiteral_flat`. -/
def uniformWeights (args : List String) : List (String × ℚ) :=
  args.map (fun k => (k, 1))

/-- `simLiteral_flat` (score part; the `debug` branch only records a trace
entry and never changes the score): `0.5*sim_pred + 0.5*sim_args` with
uniform argument weights; called through `generalized_tversky_similarity`
with two arguments, so `diff` keeps its Python default `0.0` there. -/
def simLiteral_flat (simC : String → String → ℚ) (obj1 obj2 : Literal)
    (diff : ℚ) : ℚ :=
  let sim_pred := simC obj1.1 obj2.1
  let sim_args := pointwise_similarity_weighted obj1.2 obj2.2 simC
    (uniformWeights obj1.2) (uniformWeights obj2.2) (8/10) (2/10) diff
  1/2 * sim_pred + 1/2 * sim_args

/-- `imp_args_total`: summed cross-product of constant weights over both
argument lists (`for a1 in args1 for a2 in args2`). -/
def impArgsTotal (constant_weights : List (String × ℚ))
    (args1 args2 : List String) : ℚ :=
  (args1.map (fun a1 =>
    (args2.map (fun a2 =>
      getD constant_weights a1 0 * getD constant_weights a2 0)).sum)).sum

/-- `simLiteral` (score part): importance-weighted mean of predicate and
argument similarities, normalized by `(denom + diff)` when the raw importance
mass `denom` is `> 0`, else `0.0`. -/
def simLiteral (simC : String → String → ℚ)
    (predicate_weights constant_weights : List (String × ℚ)) (diff : ℚ)
    (obj1 obj2 : Literal) : ℚ :=
  let sim_pred := simC obj1.1 obj2.1
  let imp_pred := getD predicate_weights obj1.1 0 * getD predicate_weights obj2.1 0
  let sim_args := pointwise_similarity_weighted obj1.2 obj2.2 simC
    constant_weights constant_weights (8/10) (2/10) diff
  let imp_args := impArgsTotal constant_weights obj1.2 obj2.2
  let num := sim_pred * imp_pred + sim_args * imp_args
  let denom := imp_pred + imp_args
  if denom > 0 then num / (denom + diff) else 0

/-- `membership(x, Y) = agg([sim(x, y) ** p for y in Y])`. -/
def membership {α : Type} (sim : α → α → ℚ) (p : ℕ) (agg : List ℚ → ℚ)
    (x : α) (Y : List α) : ℚ :=
  agg (Y.map (fun y => sim x y ^ p))

/-- `generalized_tversky_similarity` (score part; source lines 169–207):
`0.0` on an empty side, otherwise `a/(a + alpha*b + beta*c)` when that
denominator is `> 0`, else `0.0`. -/
def generalized_tversky_similarity {α : Type} (X Y : List α)
    (sim : α → α → ℚ) (alpha beta : ℚ) (p : ℕ) (agg : List ℚ → ℚ) : ℚ :=
  if X.isEmpty || Y.isEmpty then 0
  else
    let match_X := X.map (fun x => membership sim p agg x Y)
    let match_Y := Y.map (fun y => membership sim p agg y X)
    let a := (match_X.sum + match_Y.sum) / 2
    let b := (match_X.map (fun s => 1 - s)).sum
    let c := (match_Y.map (fun s => 1 - s)).sum
    let denom := a + alpha * b + beta * c
    if denom > 0 then a / denom else 0

/-- Lexicographic comparison of two character lists by code point (Python's
string `<`). -/
def charListLt : List Char → List Char → Bool
  | [], [] => false
  | [], _ :: _ => true
  | _ :: _, [] => false
  | c :: cs, d :: ds =>
    if c.val.toNat < d.val.toNat then true
    else if d.val.toNat < c.val.toNat then false
    else charListLt cs ds

/-- Python `<` on strings: lexicographic by code point. -/
def strLt (a b : String) : Bool :=
  charListLt a.data b.data

/-- Lexicographic Python comparison of two string tuples
(shorter prefix is smaller). -/
def argsLt : List String → List String → Bool
  | [], [] => false
  | [], _ :: _ => true
  | _ :: _, [] => false
  | a :: as, b :: bs => if strLt a b then true else if strLt b a then false else argsLt as bs

/-- Python `<` on literals, i.e. on the tuples `(pred, args)`. -/
def litLt (l1 l2 : Literal) : Bool :=
  if strLt l1.1 l2.1 then true
  else if strLt l2.1 l1.1 then false
  else argsLt l1.2 l2.2

/-- Lexicographic Python comparison of two lists of literals. -/
def litListLt : List Literal → List Literal → Bool
  | [], [] => false
  | [], _ :: _ => true
  | _ :: _, [] => false
  | a :: as, b :: bs => if litLt a b then true else if litLt b a then false else litListLt as bs

/-- `safe_sort_clause(c) = sorted(list(c), key=lambda lit: (lit[0], lit[1]))`. -/
def safe_sort_clause (c : Clause) : List Literal :=
  List.insertionSort (fun l1 l2 => !(litLt l2 l1) = true) c

/-- The sort key comparison used by `sorted(F, key=safe_sort_clause)`. -/
def clauseLe (c1 c2 : Clause) : Bool :=
  !(litListLt (safe_sort_clause c2) (safe_sort_clause c1))

/-- `sorted(F, key=safe_sort_clause)`: canonical clause ordering. -/
def sortClauses (F : Formula) : List Clause :=
  List.insertionSort (fun c1 c2 => clauseLe c1 c2 = true) F

/-- Python `max(x :: xs, key=key)`: first element attaining the maximum key
(ties keep the earlier element, since only a strict improvement replaces). -/
def maxBy {α : Type} (key : α → ℚ) (x : α) (xs : List α) : α :=
  xs.foldl (fun best y => if key y > key best then y else best) x

/-- Insertion into the `best_matches` dict: a repeated key only overwrites the
(value, which is determined by the key anyway) and does not reorder. -/
def insertKey (l : List (Clause × Clause)) (k : Clause × Clause) :
    List (Clause × Clause) :=
  if k ∈ l then l else l ++ [k]

/-- The `best_matches` correspondence of `simFormulaSet`: for every side-1
clause its flat-similarity-maximizing side-2 partner, then for every side-2
clause its best side-1 partner, unioned in insertion order.  Both loops call
Python `max` over the opposite side, so both sides must be non-empty; the
empty cases are split off in `simFormulaSet` itself. -/
def bestMatches (flatSim : Clause → Clause → ℚ) :
    List Clause → List Clause → List (Clause × Clause)
  | [], _ => []
  | _ :: _, [] => []
  | a1 :: r1, a2 :: r2 =>
    let bm1 := (a1 :: r1).foldl
      (fun acc c1 => insertKey acc (c1, maxBy (fun c2 => flatSim c1 c2) a2 r2)) []
    (a2 :: r2).foldl
      (fun acc c2 => insertKey acc (maxBy (fun c1 => flatSim c1 c2) a1 r1, c2)) bm1

/-- Python exceptions that `simFormulaSet` can raise: `ValueError` from
`max(...)` on an empty sequence, `AttributeError` from `params.get` when
`params` is `None`. -/
inductive PyErr where
  | valueError
  | attributeError
deriving DecidableEq

/-- The clause-level entries of the `params` dict, already resolved through
`params.get("clause", {}).get(..., default)`; a missing `"clause"` key is the
value `⟨0.5, 0.5, 1, agg_max⟩` (the Python defaults, with `agg=max`). -/
structure ClauseParams where
  alpha : ℚ
  beta : ℚ
  p : ℕ
  agg : List ℚ → ℚ

/-- The flat clause-pair similarity of the first phase of `simFormulaSet`:
Tversky over literals with `simLiteral_flat`, `alpha=beta=p=1`, `agg=max`. -/
def flatClauseSim (simC : String → String → ℚ) (c1 c2 : Clause) : ℚ :=
  generalized_tversky_similarity c1 c2
    (fun l1 l2 => simLiteral_flat simC l1 l2 0) 1 1 1 agg_max

/-- The weighted clause-pair similarity of the rescoring phase: Tversky over
literals with weighted `simLiteral` (merged weight maps, correction `diff`)
and the caller-configured clause-level parameters. -/
def weightedClauseSim (simC : String → String → ℚ)
    (predicate_weights constant_weights : List (String × ℚ)) (diff : ℚ)
    (ps : ClauseParams) (c1 c2 : Clause) : ℚ :=
  generalized_tversky_similarity c1 c2
    (simLiteral simC predicate_weights constant_weights diff)
    ps.alpha ps.beta ps.p ps.agg

/-- The correction term: `diff = 2 - sum_preds - sum_consts`, snapped to
`0.0` when `|diff| < 1e-4`. -/
def diffOf (pw1 pw2 cw1 cw2 : List (String × ℚ)) : ℚ :=
  let d := 2 - (sumValues pw1 + sumValues pw2) - (sumValues cw1 + sumValues cw2)
  if |d| < 1/10000 then 0 else d

/-- `simFormulaSet` (final score; source lines 210–298).  Control flow mirrors
the Python: with two non-empty (sorted) clause lists the weighted loop runs
and immediately evaluates `params.get`, so `params=None` is an
`AttributeError`; with exactly one empty side, `max` over the empty opposite
side in the best-match loops is a `ValueError`; with both sides empty no loop
body runs and the zero total weight yields `0.0`. -/
def simFormulaSet (simC : String → String → ℚ) (F1 F2 : Formula)
    (clause_weights1 clause_weights2 : List (Clause × ℚ))
    (predicate_weights1 predicate_weights2 : List (String × ℚ))
    (constant_weights1 constant_weights2 : List (String × ℚ))
    (params : Option ClauseParams) : Except PyErr ℚ :=
  let predicate_weights := mergeDicts predicate_weights1 predicate_weights2
  let constant_weights := mergeDicts constant_weights1 constant_weights2
  let diff := diffOf predicate_weights1 predicate_weights2
    constant_weights1 constant_weights2
  let all1 := sortClauses F1
  let all2 := sortClauses F2
  if all1.isEmpty then
    if all2.isEmpty then .ok 0 else .error .valueError
  else if all2.isEmpty then .error .valueError
  else
    match params with
    | none => .error .attributeError
    | some ps =>
      let bm := bestMatches (flatClauseSim simC) all1 all2
      let weighted_scores := bm.map (fun pr =>
        (weightedClauseSim simC predicate_weights constant_weights diff ps pr.1 pr.2,
         (getD clause_weights1 pr.1 1 + getD clause_weights2 pr.2 1) / 2))
      let total_weight := (weighted_scores.map (fun sw => sw.2)).sum
      if total_weight > 0 then
        .ok ((weighted_scores.map (fun sw => sw.1 * sw.2)).sum / total_weight)
      else .ok 0

/-! ### Trace model

`record_debug` guards the literal-level trace levels behind a per-level
`_seen_debugs` set keyed by the `frozenset` of the two compared objects.
The clause-level and formula-level entries of `_debug_summary`, by contrast,
are appended by `simFormulaSet` directly (outside any `debug` guard and
without consulting `_seen_debugs`). -/

/-- The per-level mutable trace state: `_seen_debugs[level]` (a set of keys)
and `_debug_summary[level]` (the ordered entry list); `K` is the key type
(`frozenset` of the compared pair) and `E` the entry tuple type. -/
structure RecState (K E : Type) where
  seen : List K
  summary : List E

/-- `record_debug(level, key, entry)` restricted to one level: append the
entry only when the key was not seen before at this level. -/
def record_debug {K E : Type} [DecidableEq K] (st : RecState K E) (key : K)
    (entry : E) : RecState K E :=
  if key ∈ st.seen then st
  else { seen := st.seen ++ [key], summary := st.summary ++ [entry] }

/-- One entry of `_debug_summary`: the shapes appended by `simFormulaSet`
itself (these are the non-literal levels reached when `debug` is `None`,
i.e. the unconditional appends in the source). -/
inductive TEntry where
  | clausePairScore (c1 c2 : Clause) (s : ℚ)
  | total (a b c s : ℚ)
  | formulaPair (c1 c2 : Clause) (s : ℚ)
deriving DecidableEq

/-- The trace buffers returned by `simFormulaSet` that are populated even
with `debug=None`: `clause_flat` and `clause_weighted` receive one
`("clause_pair_score", c1, c2, sim)` entry per compared pair, and `formula`
receives the `("TOTAL", 0,0,0, final)` entry followed by one
`("formula_pair", c1, c2, flat)` entry per correspondence pair. -/
structure TraceSummary where
  clause_flat : List TEntry
  clause_weighted : List TEntry
  formula : List TEntry
deriving DecidableEq

/-- `simFormulaSet` returning its trace as well (the Python function returns
`(final_score, _debug_summary)`); `debug=None`, so only the unconditional
appends happen. -/
def simFormulaSetTrace (simC : String → String → ℚ) (F1 F2 : Formula)
    (clause_weights1 clause_weights2 : List (Clause × ℚ))
    (predicate_weights1 predicate_weights2 : List (String × ℚ))
    (constant_weights1 constant_weights2 : List (String × ℚ))
    (params : Option ClauseParams) : Except PyErr (ℚ × TraceSummary) :=
  let predicate_weights := mergeDicts predicate_weights1 predicate_weights2
  let constant_weights := mergeDicts constant_weights1 constant_weights2
  let diff := diffOf predicate_weights1 predicate_weights2
    constant_weights1 constant_weights2
  let all1 := sortClauses F1
  let all2 := sortClauses F2
  let flatTrace := (all1.map (fun c1 => all2.map (fun c2 =>
    TEntry.clausePairScore c1 c2 (flatClauseSim simC c1 c2)))).flatten
  if all1.isEmpty then
    if all2.isEmpty then
      .ok (0, ⟨flatTrace, [], [TEntry.total 0 0 0 0]⟩)
    else .error .valueError
  else if all2.isEmpty then .error .valueError
  else
    match params with
    | none => .error .attributeError
    | some ps =>
      let bm := bestMatches (flatClauseSim simC) all1 all2
      let weighted_scores := bm.map (fun pr =>
        (weightedClauseSim simC predicate_weights constant_weights diff ps pr.1 pr.2,
         (getD clause_weights1 pr.1 1 + getD clause_weights2 pr.2 1) / 2))
      let weightedTrace := bm.map (fun pr =>
        TEntry.clausePairScore pr.1 pr.2
          (weightedClauseSim simC predicate_weights constant_weights diff ps pr.1 pr.2))
      let total_weight := (weighted_scores.map (fun sw => sw.2)).sum
      let final : ℚ := if total_weight > 0 then
        (weighted_scores.map (fun sw => sw.1 * sw.2)).sum / total_weight else 0
      let formulaTrace := TEntry.total 0 0 0 final ::
        bm.map (fun pr => TEntry.formulaPair pr.1 pr.2 (flatClauseSim simC pr.1 pr.2))
      .ok (final, ⟨flatTrace, weightedTrace, formulaTrace⟩)

/-- Whether two trace entries record the same unordered pair of compared
entities. -/
def samePairEntry : TEntry → TEntry → Bool
  | .clausePairScore c1 c2 _, .clausePairScore d1 d2 _ =>
    (decide (c1 = d1) && decide (c2 = d2)) || (decide (c1 = d2) && decide (c2 = d1))
  | .formulaPair c1 c2 _, .formulaPair d1 d2 _ =>
    (decide (c1 = d1) && decide (c2 = d2)) || (decide (c1 = d2) && decide (c2 = d1))
  | _, _ => false

/-- Whether a trace level holds two entries recording the same unordered
pair of compared entities. -/
def hasUnordDup : List TEntry → Bool
  | [] => false
  | e :: rest => rest.any (fun e2 => samePairEntry e e2) || hasUnordDup rest

/-- The `clause_flat` trace of a successful `simFormulaSetTrace` call. -/
def traceClauseFlat (res : Except PyErr (ℚ × TraceSummary)) : List TEntry :=
  match res with
  | .ok r => r.2.clause_flat
  | .error _ => []

/-- The atomic-similarity stub from the spec's scenario (§8): `1.0` for
identical text, `0.0` otherwise.  Used only to instantiate theorems at
concrete inputs. -/
def simStub : String → String → ℚ := fun a b => if a = b then 1 else 0

/-! ### Basic lemmas about the dictionary and list helpers -/

theorem getD_append_default {α : Type} [DecidableEq α] (d : List (α × ℚ))
    (k0 k : α) (dflt : ℚ) : getD (d ++ [(k0, dflt)]) k dflt = getD d k dflt := by
  induction d with
  | nil => simp [getD]
  | cons kv rest ih =>
    by_cases h : kv.1 = k <;> simp [getD, h, ih]

theorem getD_nonneg {α : Type} [DecidableEq α] (d : List (α × ℚ)) (k : α)
    (dflt : ℚ) (hd : ∀ kv ∈ d, 0 ≤ kv.2) (h0 : 0 ≤ dflt) : 0 ≤ getD d k dflt := by
  induction d with
  | nil => simpa [getD] using h0
  | cons kv rest ih =>
    by_cases h : kv.1 = k
    · simpa [getD, h] using hd kv (by simp)
    · simp only [getD, h, if_false]
      exact ih (fun kv hkv => hd kv (by simp [hkv]))

theorem sumValues_append_single {α : Type} (d : List (α × ℚ)) (k : α) (v : ℚ) :
    sumValues (d ++ [(k, v)]) = sumValues d + v := by
  simp [sumValues]

/-- Congruence for `List.foldl` with pointwise-equal step functions. -/
theorem foldl_fcongr {α β : Type} (f g : β → α → β) (l : List α) (b : β)
    (h : ∀ acc x, f acc x = g acc x) : l.foldl f b = l.foldl g b := by
  induction l generalizing b with
  | nil => rfl
  | cons x xs ih => simp only [List.foldl_cons, h, ih]

theorem mem_sortClauses {c : Clause} {F : Formula} :
    c ∈ sortClauses F ↔ c ∈ F :=
  List.mem_insertionSort _

theorem sortClauses_perm (F : Formula) : (sortClauses F).Perm F :=
  List.perm_insertionSort _ _

theorem sortClauses_nil : sortClauses [] = [] := rfl

theorem sortClauses_eq_nil_iff {F : Formula} : sortClauses F = [] ↔ F = [] := by
  rw [← List.length_eq_zero, sortClauses, List.length_insertionSort, List.length_eq_zero]

theorem sortClauses_isEmpty (F : Formula) :
    (sortClauses F).isEmpty = F.isEmpty := by
  rcases eq_or_ne F [] with h | h
  · subst h; rfl
  · rw [List.isEmpty_eq_false.mpr (fun hs => h (sortClauses_eq_nil_iff.mp hs)),
      Eq.comm, List.isEmpty_eq_false]
    exact h

theorem maxBy_mem {α : Type} (key : α → ℚ) (x : α) (xs : List α) :
    maxBy key x xs ∈ x :: xs := by
  induction xs generalizing x with
  | nil => simp [maxBy]
  | cons y ys ih =>
    have step : maxBy key x (y :: ys) = maxBy key (if key y > key x then y else x) ys := by
      simp [maxBy]
    rw [step]
    have := ih (if key y > key x then y else x)
    rcases List.mem_cons.mp this with h | h
    · rw [h]
      split <;> simp
    · simp [h]

theorem le_key_maxBy {α : Type} (key : α → ℚ) (x : α) (xs : List α) :
    ∀ z ∈ x :: xs, key z ≤ key (maxBy key x xs) := by
  induction xs generalizing x with
  | nil =>
    intro z hz
    rcases List.mem_cons.mp hz with h | h
    · rw [h]; simp [maxBy]
    · cases h
  | cons y ys ih =>
    intro z hz
    have step : maxBy key x (y :: ys) = maxBy key (if key y > key x then y else x) ys := by
      simp [maxBy]
    rw [step]
    have hhead : ∀ w, key w ≤ key (maxBy key w ys) := fun w =>
      ih w w (by simp)
    rcases List.mem_cons.mp hz with h | h
    · rw [h]
      refine le_trans ?_ (hhead _)
      split <;> simp_all [le_of_lt]
    · rcases List.mem_cons.mp h with h' | h'
      · rw [h']
        refine le_trans ?_ (hhead _)
        split
        · exact le_refl _
        · exact le_of_not_lt (by assumption)
      · exact ih _ z (by simp [h'])

theorem mem_insertKey_of_mem {l : List (Clause × Clause)} {k x : Clause × Clause}
    (h : x ∈ l) : x ∈ insertKey l k := by
  unfold insertKey
  split
  · exact h
  · exact List.mem_append_left _ h

theorem mem_insertKey_self (l : List (Clause × Clause)) (k : Clause × Clause) :
    k ∈ insertKey l k := by
  unfold insertKey
  split
  · assumption
  · exact List.mem_append_right _ (by simp)

theorem mem_foldl_insert_mono (f : Clause → Clause × Clause) (l : List Clause)
    (init : List (Clause × Clause)) {x : Clause × Clause} (h : x ∈ init) :
    x ∈ l.foldl (fun acc c => insertKey acc (f c)) init := by
  induction l generalizing init with
  | nil => exact h
  | cons c cs ih => exact ih _ (mem_insertKey_of_mem h)

theorem mem_foldl_insert (f : Clause → Clause × Clause) (l : List Clause)
    (init : List (Clause × Clause)) {c : Clause} (h : c ∈ l) :
    f c ∈ l.foldl (fun acc c => insertKey acc (f c)) init := by
  induction l generalizing init with
  | nil => cases h
  | cons d ds ih =>
    rcases List.mem_cons.mp h with h' | h'
    · subst h'
      exact mem_foldl_insert_mono f ds _ (mem_insertKey_self _ _)
    · exact ih _ h'

/-! ### Claim C6: the exact Tversky formula -/

/-- The Tversky coefficient exactly as the spec words it: membership by
aggregated powered similarities, symmetrized intersection mass
`a = (sum(matchX) + sum(matchY)) / 2`, one-sided masses `b` and `c`, score
`a / (a + alpha*b + beta*c)` and `0.0` if that denominator is `≤ 0`. -/
def tverskySpec {α : Type} (X Y : List α) (sim : α → α → ℚ)
    (alpha beta : ℚ) (p : ℕ) (agg : List ℚ → ℚ) : ℚ :=
  let membershipS := fun (x : α) (S : List α) => agg (S.map (fun y => sim x y ^ p))
  let matchX := X.map (fun x => membershipS x Y)
  let matchY := Y.map (fun y => membershipS y X)
  let a := (matchX.sum + matchY.sum) / 2
  let b := (matchX.map (fun m => 1 - m)).sum
  let c := (matchY.map (fun m => 1 - m)).sum
  if a + alpha * b + beta * c ≤ 0 then 0 else a / (a + alpha * b + beta * c)

/-- Claim C6 (confirmed): for non-empty `X`, `Y`,
`generalized_tversky_similarity` computes exactly the spec's formula:
aggregated powered memberships, `a = (sum(matchX)+sum(matchY))/2`,
`b`/`c` the complementary masses, and `a/(a + alpha*b + beta*c)` with `0.0`
when that denominator is not positive. -/
theorem C6_tversky_formula {α : Type} (X Y : List α) (sim : α → α → ℚ)
    (alpha beta : ℚ) (p : ℕ) (agg : List ℚ → ℚ) (hX : X ≠ []) (hY : Y ≠ []) :
    generalized_tversky_similarity X Y sim alpha beta p agg =
      tverskySpec X Y sim alpha beta p agg := by
  simp only [generalized_tversky_similarity, tverskySpec, membership,
    List.isEmpty_eq_false.mpr hX, List.isEmpty_eq_false.mpr hY,
    Bool.or_self, Bool.false_eq_true, if_false]
  set a := ((X.map fun x => agg (Y.map fun y => sim x y ^ p)).sum +
      (Y.map fun y => agg (X.map fun x => sim y x ^ p)).sum) / 2 with ha
  set b := ((X.map fun x => agg (Y.map fun y => sim x y ^ p)).map fun s => 1 - s).sum with hb
  set c := ((Y.map fun y => agg (X.map fun x => sim y x ^ p)).map fun s => 1 - s).sum with hc
  rcases le_or_lt (a + alpha * b + beta * c) 0 with h | h
  · rw [if_neg (not_lt.mpr h), if_pos h]
  · rw [if_pos h, if_neg (not_le.mpr h)]

/-- Witness for C6 at a concrete input. -/
theorem C6_tversky_formula_witness :
    generalized_tversky_similarity [(("P", ["a"]) : Literal)] [(("Q", ["b"]) : Literal)]
        (fun _ _ => 1/2) 1 1 1 agg_max =
      tverskySpec [(("P", ["a"]) : Literal)] [(("Q", ["b"]) : Literal)]
        (fun _ _ => 1/2) 1 1 1 agg_max :=
  C6_tversky_formula _ _ _ _ _ _ _ (by simp) (by simp)

/-! ### Claim C7: every clause participates in the correspondence -/

/-- Claim C7 (confirmed): for non-empty formulas, the `best_matches`
correspondence built by `simFormulaSet` contains, for every clause of either
formula, at least one pair in which that clause participates. -/
theorem C7_coverage (simC : String → String → ℚ) (F1 F2 : Formula)
    (h1 : F1 ≠ []) (h2 : F2 ≠ []) :
    (∀ c ∈ F1, ∃ pr ∈ bestMatches (flatClauseSim simC) (sortClauses F1) (sortClauses F2),
      pr.1 = c) ∧
    (∀ c ∈ F2, ∃ pr ∈ bestMatches (flatClauseSim simC) (sortClauses F1) (sortClauses F2),
      pr.2 = c) := by
  have e1 : sortClauses F1 ≠ [] := by
    rw [← List.isEmpty_eq_false, sortClauses_isEmpty, List.isEmpty_eq_false]
    exact h1
  have e2 : sortClauses F2 ≠ [] := by
    rw [← List.isEmpty_eq_false, sortClauses_isEmpty, List.isEmpty_eq_false]
    exact h2
  obtain ⟨a1, r1, hs1⟩ := List.exists_cons_of_ne_nil e1
  obtain ⟨a2, r2, hs2⟩ := List.exists_cons_of_ne_nil e2
  rw [hs1, hs2]
  unfold bestMatches
  constructor
  · intro c hc
    have hc' : c ∈ a1 :: r1 := by
      rw [← hs1]
      exact mem_sortClauses.mpr hc
    refine ⟨(c, maxBy (fun c2 => flatClauseSim simC c c2) a2 r2), ?_, rfl⟩
    exact mem_foldl_insert_mono _ _ _
      (mem_foldl_insert (fun c1 => (c1, maxBy (fun c2 => flatClauseSim simC c1 c2) a2 r2))
        (a1 :: r1) [] hc')
  · intro c hc
    have hc' : c ∈ a2 :: r2 := by
      rw [← hs2]
      exact mem_sortClauses.mpr hc
    refine ⟨(maxBy (fun c1 => flatClauseSim simC c1 c) a1 r1, c), ?_, rfl⟩
    exact mem_foldl_insert (fun c2 => (maxBy (fun c1 => flatClauseSim simC c1 c2) a1 r1, c2))
      (a2 :: r2) _ hc'

/-- Witness for C7 at a concrete input. -/
theorem C7_coverage_witness :
    (∀ c ∈ ([[(("P", ["a"]) : Literal)]] : Formula), ∃ pr ∈ bestMatches (flatClauseSim simStub)
        (sortClauses [[(("P", ["a"]) : Literal)]]) (sortClauses [[(("Q", ["b"]) : Literal)]]),
      pr.1 = c) ∧
    (∀ c ∈ ([[(("Q", ["b"]) : Literal)]] : Formula), ∃ pr ∈ bestMatches (flatClauseSim simStub)
        (sortClauses [[(("P", ["a"]) : Literal)]]) (sortClauses [[(("Q", ["b"]) : Literal)]]),
      pr.2 = c) :=
  C7_coverage simStub _ _ (by simp) (by simp)

/-! ### Claim C10: omitting `params` -/

/-- Claim C10 (confirmed): with `params` omitted (its declared default
`None`), `simFormulaSet` on two non-empty formulas fails with
`AttributeError` when the clause-level configuration is looked up in the
weighted rescoring step; the call succeeds only when both formulas are
empty (one-sided emptiness dies earlier with `ValueError` from `max`). -/
theorem C10_params_none (simC : String → String → ℚ) (F1 F2 : Formula)
    (cw1 cw2 : List (Clause × ℚ)) (pw1 pw2 cwt1 cwt2 : List (String × ℚ)) :
    (F1 ≠ [] → F2 ≠ [] →
      simFormulaSet simC F1 F2 cw1 cw2 pw1 pw2 cwt1 cwt2 none = .error .attributeError) ∧
    ((∃ q, simFormulaSet simC F1 F2 cw1 cw2 pw1 pw2 cwt1 cwt2 none = .ok q) ↔
      (F1 = [] ∧ F2 = [])) := by
  rcases eq_or_ne F1 [] with hF1 | hF1
  · subst hF1
    rcases eq_or_ne F2 [] with hF2 | hF2
    · subst hF2
      constructor
      · intro h; exact absurd rfl h
      · exact ⟨fun _ => ⟨rfl, rfl⟩, fun _ => ⟨0, rfl⟩⟩
    · have e2 : (sortClauses F2).isEmpty = false := by
        rw [sortClauses_isEmpty, List.isEmpty_eq_false]; exact hF2
      constructor
      · intro h; exact absurd rfl h
      · rw [show simFormulaSet simC [] F2 cw1 cw2 pw1 pw2 cwt1 cwt2 none =
            .error .valueError by simp [simFormulaSet, sortClauses_nil, e2]]
        constructor
        · rintro ⟨q, hq⟩; cases hq
        · rintro ⟨-, h⟩; exact absurd h hF2
  · have e1 : (sortClauses F1).isEmpty = false := by
      rw [sortClauses_isEmpty, List.isEmpty_eq_false]; exact hF1
    rcases eq_or_ne F2 [] with hF2 | hF2
    · subst hF2
      rw [show simFormulaSet simC F1 [] cw1 cw2 pw1 pw2 cwt1 cwt2 none =
          .error .valueError by simp [simFormulaSet, sortClauses_nil, e1]]
      constructor
      · intro _ h2; exact absurd rfl h2
      · constructor
        · rintro ⟨q, hq⟩; cases hq
        · rintro ⟨h, -⟩; exact absurd h hF1
    · have e2 : (sortClauses F2).isEmpty = false := by
        rw [sortClauses_isEmpty, List.isEmpty_eq_false]; exact hF2
      have hres : simFormulaSet simC F1 F2 cw1 cw2 pw1 pw2 cwt1 cwt2 none =
          .error .attributeError := by
        simp [simFormulaSet, e1, e2]
      rw [hres]
      constructor
      · intro _ _; rfl
      · constructor
        · rintro ⟨q, hq⟩; cases hq
        · rintro ⟨h, -⟩; exact absurd h hF1

/-- Witness for C10 at a concrete input. -/
theorem C10_params_none_witness :
    simFormulaSet simStub [[(("P", ["a"]) : Literal)]] [[(("P", ["a"]) : Literal)]]
      [] [] [] [] [] [] none = .error .attributeError :=
  (C10_params_none simStub _ _ [] [] [] [] [] []).1 (by simp) (by simp)

/-! ### Claim C5: denominator guards -/

/-- The local `denom = a + alpha*b + beta*c` of
`generalized_tversky_similarity`. -/
def tverskyDenom {α : Type} (X Y : List α) (sim : α → α → ℚ)
    (alpha beta : ℚ) (p : ℕ) (agg : List ℚ → ℚ) : ℚ :=
  let match_X := X.map (fun x => membership sim p agg x Y)
  let match_Y := Y.map (fun y => membership sim p agg y X)
  (match_X.sum + match_Y.sum) / 2
    + alpha * (match_X.map (fun s => 1 - s)).sum
    + beta * (match_Y.map (fun s => 1 - s)).sum

/-- Claim C5 counterexample: the positional guard of
`pointwise_similarity_weighted` tests only the raw weight mass, not the
correction-adjusted denominator.  Here the raw positional mass is `1`, the
adjusted denominator `1 + (-3/2) = -1/2 ≤ 0`, and the returned score is
`-2`, not `0.0`. -/
theorem C5_guard_cex :
    (posAccum simStub [("a", 1)] [("a", 1)] ["a"] ["a"]).2 + (-3/2) ≤ 0 ∧
    pointwise_similarity_weighted ["a"] ["a"] simStub [("a", 1)] [("a", 1)]
      (8/10) (2/10) (-3/2) = -2 := by
  constructor
  · simp +decide only [posAccum, getD, simStub, List.zip, List.zipWith, List.foldl]
    norm_num
  · simp +decide only [pointwise_similarity_weighted, posAccum, unordAccum,
      bestMatchFold, getD, simStub, List.zip, List.zipWith, List.foldl,
      List.isEmpty]
    norm_num

/-- Claim C5 (corrected): the guards in the source test the raw masses, not
the correction-adjusted denominators.  What does hold: a non-positive raw
positional and unordered weight mass gives `pointwise_similarity_weighted`
score `0.0`; a non-positive raw importance mass gives `simLiteral` score
`0.0`; and a non-positive full Tversky denominator `a + alpha*b + beta*c`
gives `generalized_tversky_similarity` score `0.0`. -/
theorem C5_guards_amended :
    (∀ (args1 args2 : List String) (simC : String → String → ℚ)
        (w1 w2 : List (String × ℚ)) (pw uw diff : ℚ),
      (posAccum simC w1 w2 args1 args2).2 ≤ 0 →
      (unordAccum simC w1 w2 args1 args2).2 ≤ 0 →
      pointwise_similarity_weighted args1 args2 simC w1 w2 pw uw diff = 0) ∧
    (∀ (simC : String → String → ℚ) (pw cw : List (String × ℚ)) (diff : ℚ)
        (o1 o2 : Literal),
      getD pw o1.1 0 * getD pw o2.1 0 + impArgsTotal cw o1.2 o2.2 ≤ 0 →
      simLiteral simC pw cw diff o1 o2 = 0) ∧
    (∀ (α : Type) (X Y : List α) (sim : α → α → ℚ) (alpha beta : ℚ) (p : ℕ)
        (agg : List ℚ → ℚ),
      tverskyDenom X Y sim alpha beta p agg ≤ 0 →
      generalized_tversky_similarity X Y sim alpha beta p agg = 0) := by
  refine ⟨?_, ?_, ?_⟩
  · intro args1 args2 simC w1 w2 pw uw diff h1 h2
    simp only [pointwise_similarity_weighted]
    cases hE : (args1.isEmpty || args2.isEmpty)
    · simp only [Bool.false_eq_true, if_false, if_neg (not_lt.mpr h1),
        if_neg (not_lt.mpr h2), mul_zero, add_zero]
    · simp
  · intro simC pw cw diff o1 o2 h
    simp only [simLiteral, if_neg (not_lt.mpr h)]
  · intro α X Y sim alpha beta p agg h
    simp only [tverskyDenom] at h
    simp only [generalized_tversky_similarity]
    cases hE : (X.isEmpty || Y.isEmpty)
    · simp only [Bool.false_eq_true, if_false, if_neg (not_lt.mpr h)]
    · simp

/-- Witness for C5 at concrete inputs discharging each hypothesis. -/
theorem C5_guards_amended_witness :
    pointwise_similarity_weighted [] ["b"] simStub [] [] (8/10) (2/10) 0 = 0 ∧
    simLiteral simStub [] [] 0 ("P", []) ("Q", []) = 0 ∧
    generalized_tversky_similarity ([] : List Literal) [] (fun _ _ => 0) 1 1 1 agg_max = 0 :=
  ⟨C5_guards_amended.1 [] ["b"] simStub [] [] (8/10) (2/10) 0
      (by simp [posAccum]) (by simp [unordAccum]),
   C5_guards_amended.2.1 simStub [] [] 0 ("P", []) ("Q", [])
      (by simp [getD, impArgsTotal]),
   C5_guards_amended.2.2 Literal [] [] (fun _ _ => 0) 1 1 1 agg_max
      (by simp [tverskyDenom])⟩

/-! ### Claim C4: empty-input behavior -/

/-- Claim C4 counterexample: an empty formula against a non-empty one does
not return `0.0`; the best-match loop's `max` over the empty side raises
`ValueError`. -/
theorem C4_empty_cex :
    simFormulaSet simStub [] [[(("P", ["a"]) : Literal)]] [] [] [] [] [] []
      (some ⟨1/2, 1/2, 1, agg_max⟩) = .error .valueError ∧
    simFormulaSet simStub [] [[(("P", ["a"]) : Literal)]] [] [] [] [] [] []
      (some ⟨1/2, 1/2, 1, agg_max⟩) ≠ .ok 0 := by
  have h : simFormulaSet simStub [] [[(("P", ["a"]) : Literal)]] [] [] [] [] [] []
      (some ⟨1/2, 1/2, 1, agg_max⟩) = .error .valueError := by
    simp [simFormulaSet, sortClauses_nil, sortClauses_isEmpty]
  exact ⟨h, by rw [h]; simp⟩

/-- Claim C4 (corrected): empty argument lists and empty clauses do yield
`0.0`, and `simFormulaSet` on two empty formulas returns `0.0`; but an empty
formula on exactly one side raises `ValueError` instead of returning
`0.0`. -/
theorem C4_empty_amended :
    (∀ (args2 : List String) (simC : String → String → ℚ)
        (w1 w2 : List (String × ℚ)) (pw uw diff : ℚ),
      pointwise_similarity_weighted [] args2 simC w1 w2 pw uw diff = 0) ∧
    (∀ (args1 : List String) (simC : String → String → ℚ)
        (w1 w2 : List (String × ℚ)) (pw uw diff : ℚ),
      pointwise_similarity_weighted args1 [] simC w1 w2 pw uw diff = 0) ∧
    (∀ (α : Type) (Y : List α) (sim : α → α → ℚ) (alpha beta : ℚ) (p : ℕ)
        (agg : List ℚ → ℚ),
      generalized_tversky_similarity [] Y sim alpha beta p agg = 0) ∧
    (∀ (α : Type) (X : List α) (sim : α → α → ℚ) (alpha beta : ℚ) (p : ℕ)
        (agg : List ℚ → ℚ),
      generalized_tversky_similarity X [] sim alpha beta p agg = 0) ∧
    (∀ (simC : String → String → ℚ) (cw1 cw2 : List (Clause × ℚ))
        (pw1 pw2 cwt1 cwt2 : List (String × ℚ)) (params : Option ClauseParams),
      simFormulaSet simC [] [] cw1 cw2 pw1 pw2 cwt1 cwt2 params = .ok 0) ∧
    (∀ (simC : String → String → ℚ) (F2 : Formula) (cw1 cw2 : List (Clause × ℚ))
        (pw1 pw2 cwt1 cwt2 : List (String × ℚ)) (params : Option ClauseParams),
      F2 ≠ [] →
      simFormulaSet simC [] F2 cw1 cw2 pw1 pw2 cwt1 cwt2 params = .error .valueError) ∧
    (∀ (simC : String → String → ℚ) (F1 : Formula) (cw1 cw2 : List (Clause × ℚ))
        (pw1 pw2 cwt1 cwt2 : List (String × ℚ)) (params : Option ClauseParams),
      F1 ≠ [] →
      simFormulaSet simC F1 [] cw1 cw2 pw1 pw2 cwt1 cwt2 params = .error .valueError) := by
  refine ⟨?_, ?_, ?_, ?_, ?_, ?_, ?_⟩
  · intro args2 simC w1 w2 pw uw diff
    simp [pointwise_similarity_weighted]
  · intro args1 simC w1 w2 pw uw diff
    simp [pointwise_similarity_weighted]
  · intro α Y sim alpha beta p agg
    simp [generalized_tversky_similarity]
  · intro α X sim alpha beta p agg
    simp [generalized_tversky_similarity]
  · intro simC cw1 cw2 pw1 pw2 cwt1 cwt2 params
    simp [simFormulaSet, sortClauses_nil]
  · intro simC F2 cw1 cw2 pw1 pw2 cwt1 cwt2 params h2
    have e2 : (sortClauses F2).isEmpty = false := by
      rw [sortClauses_isEmpty, List.isEmpty_eq_false]; exact h2
    simp [simFormulaSet, sortClauses_nil, e2]
  · intro simC F1 cw1 cw2 pw1 pw2 cwt1 cwt2 params h1
    have e1 : (sortClauses F1).isEmpty = false := by
      rw [sortClauses_isEmpty, List.isEmpty_eq_false]; exact h1
    simp [simFormulaSet, sortClauses_nil, e1]

/-- Witness for C4 at concrete inputs discharging the hypotheses. -/
theorem C4_empty_amended_witness :
    simFormulaSet simStub [] [[(("P", ["a"]) : Literal)]] [] [] [] [] [] []
      (some ⟨1, 1, 1, agg_max⟩) = .error .valueError ∧
    simFormulaSet simStub [[(("P", ["a"]) : Literal)]] [] [] [] [] [] [] []
      (some ⟨1, 1, 1, agg_max⟩) = .error .valueError :=
  ⟨C4_empty_amended.2.2.2.2.2.1 simStub [[(("P", ["a"]) : Literal)]] [] [] [] [] [] []
      (some ⟨1, 1, 1, agg_max⟩) (by simp),
   C4_empty_amended.2.2.2.2.2.2 simStub [[(("P", ["a"]) : Literal)]] [] [] [] [] [] []
      (some ⟨1, 1, 1, agg_max⟩) (by simp)⟩

/-! ### Claim C8: trace deduplication -/

/-- Invariant for `record_debug`: starting from a state whose summary keys
are duplicate-free and all marked seen, any sequence of recordings keeps the
summary keys duplicate-free (and marked seen), provided each op's key is the
key of its entry. -/
theorem record_debug_invariant {K E : Type} [DecidableEq K] (keyOf : E → K)
    (ops : List (K × E)) (st : RecState K E)
    (h1 : (st.summary.map keyOf).Nodup)
    (h2 : ∀ k ∈ st.summary.map keyOf, k ∈ st.seen)
    (hops : ∀ op ∈ ops, keyOf op.2 = op.1) :
    ((ops.foldl (fun st op => record_debug st op.1 op.2) st).summary.map keyOf).Nodup ∧
    ∀ k ∈ (ops.foldl (fun st op => record_debug st op.1 op.2) st).summary.map keyOf,
      k ∈ (ops.foldl (fun st op => record_debug st op.1 op.2) st).seen := by
  induction ops generalizing st with
  | nil => exact ⟨h1, h2⟩
  | cons op rest ih =>
    simp only [List.foldl_cons]
    have hkey : keyOf op.2 = op.1 := hops op (by simp)
    by_cases hseen : op.1 ∈ st.seen
    · have : record_debug st op.1 op.2 = st := by
        simp [record_debug, hseen]
      rw [this]
      exact ih st h1 h2 (fun o ho => hops o (by simp [ho]))
    · have hrec : record_debug st op.1 op.2 =
          ⟨st.seen ++ [op.1], st.summary ++ [op.2]⟩ := by
        simp [record_debug, hseen]
      rw [hrec]
      refine ih _ ?_ ?_ (fun o ho => hops o (by simp [ho]))
      · simp only [List.map_append, List.map_cons, List.map_nil, hkey]
        rw [List.nodup_append]
        refine ⟨h1, List.nodup_singleton _, ?_⟩
        intro a ha hb
        rw [List.mem_singleton] at hb
        subst hb
        exact hseen (h2 _ ha)
      · intro k hk
        simp only [List.map_append, List.map_cons, List.map_nil, hkey,
          List.mem_append, List.mem_singleton] at hk
        rcases hk with hk | hk
        · exact List.mem_append_left _ (h2 _ hk)
        · subst hk; exact List.mem_append_right _ (by simp)

/-- Claim C8 counterexample: comparing the two-clause formula
`{{P(a)}, {Q(b)}}` with itself, the `clause_flat` trace (appended by
`simFormulaSet` outside any deduplication) records the unordered clause pair
`{{P(a)}, {Q(b)}}` twice — once per orientation. -/
theorem C8_trace_cex :
    hasUnordDup (traceClauseFlat (simFormulaSetTrace simStub
      [[(("P", ["a"]) : Literal)], [(("Q", ["b"]) : Literal)]]
      [[(("P", ["a"]) : Literal)], [(("Q", ["b"]) : Literal)]]
      [] [] [] [] [] [] (some ⟨1/2, 1/2, 1, agg_max⟩))) = true := by
  simp +decide only [simFormulaSetTrace, traceClauseFlat, hasUnordDup, samePairEntry,
    sortClauses, clauseLe, safe_sort_clause, litListLt, litLt, argsLt, strLt, charListLt,
    List.insertionSort, List.orderedInsert, List.isEmpty, List.map, List.flatten,
    List.any, List.append, Bool.or_eq_true, Bool.and_eq_true, decide_eq_true_eq,
    mergeDicts, diffOf, sumValues]

/-- Claim C8 (corrected): deduplication by unordered pair holds only for the
trace levels written through `record_debug` (the literal levels): from a
cleared state, no two recorded entries share a key.  The clause-level (and
formula-level) entries are appended by `simFormulaSet` directly, without
that guard, and can repeat an unordered pair (see the counterexample). -/
theorem C8_dedup_amended {K E : Type} [DecidableEq K] (keyOf : E → K)
    (ops : List (K × E)) (hops : ∀ op ∈ ops, keyOf op.2 = op.1) :
    ((ops.foldl (fun st op => record_debug st op.1 op.2)
      (⟨[], []⟩ : RecState K E)).summary.map keyOf).Nodup :=
  (record_debug_invariant keyOf ops ⟨[], []⟩ (by simp) (by simp) hops).1

/-- Witness for C8 at a concrete op sequence (repeated keys collapse). -/
theorem C8_dedup_amended_witness :
    ((([( (1 : ℕ), (1 : ℕ)), (1, 1), (2, 2)] : List (ℕ × ℕ)).foldl
      (fun st op => record_debug st op.1 op.2)
      (⟨[], []⟩ : RecState ℕ ℕ)).summary.map id).Nodup :=
  C8_dedup_amended id [(1, 1), (1, 1), (2, 2)] (by decide)

/-! ### Claim C9: default weights -/

/-- Claim C9 counterexample: clause-weight lookups do not default to `0.0`.
With the clause missing from both clause-weight maps the final score is `1`
(default weight `1.0`), while with an explicit weight `0.0` it is `0`; a
`0.0` default would make both calls agree. -/
theorem C9_default_cex :
    simFormulaSet simStub [[(("P", ["a"]) : Literal)]] [[(("P", ["a"]) : Literal)]]
      [] [] [("P", 1/2)] [("P", 1/2)] [("a", 1/2)] [("a", 1/2)]
      (some ⟨1/2, 1/2, 1, agg_max⟩) = .ok 1 ∧
    simFormulaSet simStub [[(("P", ["a"]) : Literal)]] [[(("P", ["a"]) : Literal)]]
      [([(("P", ["a"]) : Literal)], 0)] [([(("P", ["a"]) : Literal)], 0)]
      [("P", 1/2)] [("P", 1/2)] [("a", 1/2)] [("a", 1/2)]
      (some ⟨1/2, 1/2, 1, agg_max⟩) = .ok 0 := by
  constructor
  · simp +decide only [simFormulaSet, mergeDicts, diffOf, sumValues, sortClauses,
      clauseLe, safe_sort_clause, litListLt, litLt, argsLt, List.insertionSort,
      List.orderedInsert, bestMatches, insertKey, maxBy, flatClauseSim,
      weightedClauseSim, generalized_tversky_similarity, membership, agg_max,
      simLiteral_flat, simLiteral, pointwise_similarity_weighted, posAccum,
      unordAccum, bestMatchFold, uniformWeights, impArgsTotal, getD, simStub,
      List.foldl, List.map, List.zip, List.zipWith, List.sum, List.isEmpty]
    norm_num
  · simp +decide only [simFormulaSet, mergeDicts, diffOf, sumValues, sortClauses,
      clauseLe, safe_sort_clause, litListLt, litLt, argsLt, List.insertionSort,
      List.orderedInsert, bestMatches, insertKey, maxBy, flatClauseSim,
      weightedClauseSim, generalized_tversky_similarity, membership, agg_max,
      simLiteral_flat, simLiteral, pointwise_similarity_weighted, posAccum,
      unordAccum, bestMatchFold, uniformWeights, impArgsTotal, getD, simStub,
      List.foldl, List.map, List.zip, List.zipWith, List.sum, List.isEmpty]
    norm_num

/-! ### Congruence lemmas: the engine reads weight maps only through `getD` -/

theorem posAccum_congr (simC : String → String → ℚ)
    (w1 w1' w2 w2' : List (String × ℚ)) (args1 args2 : List String)
    (h1 : ∀ k, getD w1 k 0 = getD w1' k 0) (h2 : ∀ k, getD w2 k 0 = getD w2' k 0) :
    posAccum simC w1 w2 args1 args2 = posAccum simC w1' w2' args1 args2 := by
  unfold posAccum
  exact foldl_fcongr _ _ _ _ (fun acc x => by simp only [h1, h2])

theorem bestMatchFold_congr (simC : String → String → ℚ) (w1v : ℚ)
    (w2 w2' : List (String × ℚ)) (a1 : String) (args2 : List String)
    (h2 : ∀ k, getD w2 k 0 = getD w2' k 0) :
    bestMatchFold simC w1v w2 a1 args2 = bestMatchFold simC w1v w2' a1 args2 := by
  unfold bestMatchFold
  exact foldl_fcongr _ _ _ _ (fun b a2 => by simp only [h2])

theorem unordAccum_congr (simC : String → String → ℚ)
    (w1 w1' w2 w2' : List (String × ℚ)) (args1 args2 : List String)
    (h1 : ∀ k, getD w1 k 0 = getD w1' k 0) (h2 : ∀ k, getD w2 k 0 = getD w2' k 0) :
    unordAccum simC w1 w2 args1 args2 = unordAccum simC w1' w2' args1 args2 := by
  unfold unordAccum
  exact foldl_fcongr _ _ _ _ (fun acc a1 => by
    rw [h1 a1, bestMatchFold_congr simC _ w2 w2' a1 args2 h2])

theorem pointwise_congr (args1 args2 : List String) (simC : String → String → ℚ)
    (w1 w1' w2 w2' : List (String × ℚ)) (pw uw diff : ℚ)
    (h1 : ∀ k, getD w1 k 0 = getD w1' k 0) (h2 : ∀ k, getD w2 k 0 = getD w2' k 0) :
    pointwise_similarity_weighted args1 args2 simC w1 w2 pw uw diff =
      pointwise_similarity_weighted args1 args2 simC w1' w2' pw uw diff := by
  unfold pointwise_similarity_weighted
  rw [posAccum_congr simC w1 w1' w2 w2' args1 args2 h1 h2,
    unordAccum_congr simC w1 w1' w2 w2' args1 args2 h1 h2]

theorem impArgsTotal_congr (cw cw' : List (String × ℚ)) (args1 args2 : List String)
    (h : ∀ k, getD cw k 0 = getD cw' k 0) :
    impArgsTotal cw args1 args2 = impArgsTotal cw' args1 args2 := by
  unfold impArgsTotal
  congr 1
  exact List.map_congr_left (fun a1 _ => by
    congr 1
    exact List.map_congr_left (fun a2 _ => by rw [h, h]))

theorem simLiteral_congr (simC : String → String → ℚ)
    (pw pw' cw cw' : List (String × ℚ)) (diff : ℚ) (o1 o2 : Literal)
    (hp : ∀ k, getD pw k 0 = getD pw' k 0) (hc : ∀ k, getD cw k 0 = getD cw' k 0) :
    simLiteral simC pw cw diff o1 o2 = simLiteral simC pw' cw' diff o1 o2 := by
  unfold simLiteral
  rw [hp o1.1, hp o2.1, pointwise_congr o1.2 o2.2 simC cw cw' cw cw' _ _ _ hc hc,
    impArgsTotal_congr cw cw' o1.2 o2.2 hc]

theorem tversky_sim_congr {γ : Type} (X Y : List γ) (sim sim' : γ → γ → ℚ)
    (alpha beta : ℚ) (p : ℕ) (agg : List ℚ → ℚ)
    (h : ∀ x y, sim x y = sim' x y) :
    generalized_tversky_similarity X Y sim alpha beta p agg =
      generalized_tversky_similarity X Y sim' alpha beta p agg := by
  unfold generalized_tversky_similarity membership
  have hm : ∀ (x : γ) (S : List γ),
      (S.map fun y => sim x y ^ p) = S.map fun y => sim' x y ^ p :=
    fun x S => List.map_congr_left (fun y _ => by rw [h])
  simp only [hm]

theorem weightedClauseSim_congr (simC : String → String → ℚ)
    (pw pw' cw cw' : List (String × ℚ)) (diff : ℚ) (ps : ClauseParams)
    (c1 c2 : Clause)
    (hp : ∀ k, getD pw k 0 = getD pw' k 0) (hc : ∀ k, getD cw k 0 = getD cw' k 0) :
    weightedClauseSim simC pw cw diff ps c1 c2 =
      weightedClauseSim simC pw' cw' diff ps c1 c2 := by
  unfold weightedClauseSim
  exact tversky_sim_congr c1 c2 _ _ _ _ _ _
    (fun x y => simLiteral_congr simC pw pw' cw cw' diff x y hp hc)

/-- Extensionality of `simFormulaSet` in the weight maps: two sets of maps
that agree through every `getD` lookup (and produce the same correction
term) give the same result. -/
theorem simFormulaSet_ext (simC : String → String → ℚ) (F1 F2 : Formula)
    (cw1 cw1' cw2 cw2' : List (Clause × ℚ))
    (pw1 pw1' pw2 pw2' cwt1 cwt1' cwt2 cwt2' : List (String × ℚ))
    (params : Option ClauseParams)
    (hmp : ∀ k, getD (mergeDicts pw1 pw2) k 0 = getD (mergeDicts pw1' pw2') k 0)
    (hmc : ∀ k, getD (mergeDicts cwt1 cwt2) k 0 = getD (mergeDicts cwt1' cwt2') k 0)
    (hdiff : diffOf pw1 pw2 cwt1 cwt2 = diffOf pw1' pw2' cwt1' cwt2')
    (hcw1 : ∀ k, getD cw1 k 1 = getD cw1' k 1)
    (hcw2 : ∀ k, getD cw2 k 1 = getD cw2' k 1) :
    simFormulaSet simC F1 F2 cw1 cw2 pw1 pw2 cwt1 cwt2 params =
      simFormulaSet simC F1 F2 cw1' cw2' pw1' pw2' cwt1' cwt2' params := by
  unfold simFormulaSet
  cases hA : (sortClauses F1).isEmpty <;> cases hB : (sortClauses F2).isEmpty <;>
    simp only [hA, hB, Bool.false_eq_true, if_true, if_false]
  cases params with
  | none => rfl
  | some ps =>
    have hws : (bestMatches (flatClauseSim simC) (sortClauses F1) (sortClauses F2)).map
        (fun pr => (weightedClauseSim simC (mergeDicts pw1 pw2) (mergeDicts cwt1 cwt2)
            (diffOf pw1 pw2 cwt1 cwt2) ps pr.1 pr.2,
          (getD cw1 pr.1 1 + getD cw2 pr.2 1) / 2)) =
        (bestMatches (flatClauseSim simC) (sortClauses F1) (sortClauses F2)).map
        (fun pr => (weightedClauseSim simC (mergeDicts pw1' pw2') (mergeDicts cwt1' cwt2')
            (diffOf pw1' pw2' cwt1' cwt2') ps pr.1 pr.2,
          (getD cw1' pr.1 1 + getD cw2' pr.2 1) / 2)) := by
      apply List.map_congr_left
      intro pr _
      rw [hcw1 pr.1, hcw2 pr.2, ← hdiff,
        weightedClauseSim_congr simC _ _ _ _ _ ps pr.1 pr.2 hmp hmc]
    simp only [hws]

/-- Claim C9 (corrected): lookups never fail, but the defaults differ by
kind: predicate and constant weights default to `0.0`, while clause weights
default to `1.0`.  Extending a predicate or constant map with an explicit
`0.0` entry, or a clause-weight map with an explicit `1.0` entry, never
changes the result of `simFormulaSet`. -/
theorem C9_defaults_amended (simC : String → String → ℚ) (F1 F2 : Formula)
    (cw1 cw2 : List (Clause × ℚ)) (pw1 pw2 cwt1 cwt2 : List (String × ℚ))
    (params : Option ClauseParams) (c c' : Clause) (s t : String) :
    simFormulaSet simC F1 F2 (cw1 ++ [(c, 1)]) (cw2 ++ [(c', 1)])
      (pw1 ++ [(s, 0)]) pw2 (cwt1 ++ [(t, 0)]) cwt2 params =
    simFormulaSet simC F1 F2 cw1 cw2 pw1 pw2 cwt1 cwt2 params := by
  apply simFormulaSet_ext
  · intro k
    show getD (pw2 ++ (pw1 ++ [(s, 0)])) k 0 = getD (pw2 ++ pw1) k 0
    rw [← List.append_assoc]
    exact getD_append_default (pw2 ++ pw1) s k 0
  · intro k
    show getD (cwt2 ++ (cwt1 ++ [(t, 0)])) k 0 = getD (cwt2 ++ cwt1) k 0
    rw [← List.append_assoc]
    exact getD_append_default (cwt2 ++ cwt1) t k 0
  · unfold diffOf
    rw [sumValues_append_single, sumValues_append_single]
    norm_num
  · intro k
    exact getD_append_default cw1 c k 1
  · intro k
    exact getD_append_default cw2 c' k 1

/-! ### Bounds infrastructure (Claim C2) -/

/-- Invariant preservation along a `List.foldl`. -/
theorem foldl_inv {α β : Type} (f : β → α → β) (l : List α) (b : β) (P : β → Prop)
    (hb : P b) (hstep : ∀ acc x, x ∈ l → P acc → P (f acc x)) : P (l.foldl f b) := by
  induction l generalizing b with
  | nil => exact hb
  | cons x xs ih =>
    exact ih _ (hstep b x (by simp) hb) (fun acc y hy hP => hstep acc y (by simp [hy]) hP)

/-- An aggregation function mapping score lists in `[0,1]` into `[0,1]`
(true of `max`, arithmetic mean, and the softmax-weighted mean). -/
def AggBounded (agg : List ℚ → ℚ) : Prop :=
  ∀ l : List ℚ, (∀ s ∈ l, 0 ≤ s ∧ s ≤ 1) → 0 ≤ agg l ∧ agg l ≤ 1

theorem agg_max_bounded : AggBounded agg_max := by
  intro l hl
  cases l with
  | nil => simp [agg_max]
  | cons s rest =>
    simp only [agg_max]
    refine foldl_inv _ rest s (fun x => 0 ≤ x ∧ x ≤ 1) (hl s (by simp)) ?_
    intro acc y hy hacc
    have hy' := hl y (by simp [hy])
    exact ⟨le_trans hacc.1 (le_max_left _ _), max_le hacc.2 hy'.2⟩

theorem posAccum_bounds (simC : String → String → ℚ)
    (w1 w2 : List (String × ℚ)) (args1 args2 : List String)
    (hsim : ∀ a b, 0 ≤ simC a b ∧ simC a b ≤ 1)
    (hw1 : ∀ kv ∈ w1, 0 ≤ kv.2) (hw2 : ∀ kv ∈ w2, 0 ≤ kv.2) :
    0 ≤ (posAccum simC w1 w2 args1 args2).1 ∧
    (posAccum simC w1 w2 args1 args2).1 ≤ (posAccum simC w1 w2 args1 args2).2 := by
  unfold posAccum
  refine foldl_inv _ _ _ (fun acc : ℚ × ℚ => 0 ≤ acc.1 ∧ acc.1 ≤ acc.2) (by norm_num) ?_
  intro acc pr _ hacc
  have himp : 0 ≤ getD w1 pr.1 0 * getD w2 pr.2 0 :=
    mul_nonneg (getD_nonneg _ _ _ hw1 le_rfl) (getD_nonneg _ _ _ hw2 le_rfl)
  have hs := hsim pr.1 pr.2
  refine ⟨add_nonneg hacc.1 (mul_nonneg himp hs.1), ?_⟩
  exact add_le_add hacc.2 (mul_le_of_le_one_right himp hs.2)

theorem bestMatchFold_bounds (simC : String → String → ℚ) (w1v : ℚ)
    (w2 : List (String × ℚ)) (a1 : String) (args2 : List String)
    (hsim : ∀ a b, 0 ≤ simC a b ∧ simC a b ≤ 1)
    (hw1v : 0 ≤ w1v) (hw2 : ∀ kv ∈ w2, 0 ≤ kv.2) :
    0 ≤ (bestMatchFold simC w1v w2 a1 args2).1 ∧
    (bestMatchFold simC w1v w2 a1 args2).1 ≤ 1 ∧
    0 ≤ (bestMatchFold simC w1v w2 a1 args2).2 := by
  unfold bestMatchFold
  refine foldl_inv _ _ _ (fun b : ℚ × ℚ => 0 ≤ b.1 ∧ b.1 ≤ 1 ∧ 0 ≤ b.2) (by norm_num) ?_
  intro b a2 _ hb
  dsimp only
  split
  · exact ⟨(hsim a1 a2).1, (hsim a1 a2).2,
      mul_nonneg hw1v (getD_nonneg _ _ _ hw2 le_rfl)⟩
  · exact hb

theorem unordAccum_bounds (simC : String → String → ℚ)
    (w1 w2 : List (String × ℚ)) (args1 args2 : List String)
    (hsim : ∀ a b, 0 ≤ simC a b ∧ simC a b ≤ 1)
    (hw1 : ∀ kv ∈ w1, 0 ≤ kv.2) (hw2 : ∀ kv ∈ w2, 0 ≤ kv.2) :
    0 ≤ (unordAccum simC w1 w2 args1 args2).1 ∧
    (unordAccum simC w1 w2 args1 args2).1 ≤ (unordAccum simC w1 w2 args1 args2).2 := by
  unfold unordAccum
  refine foldl_inv _ _ _ (fun acc : ℚ × ℚ => 0 ≤ acc.1 ∧ acc.1 ≤ acc.2) (by norm_num) ?_
  intro acc a1 _ hacc
  have hbf := bestMatchFold_bounds simC (getD w1 a1 0) w2 a1 args2 hsim
    (getD_nonneg _ _ _ hw1 le_rfl) hw2
  dsimp only
  refine ⟨add_nonneg hacc.1 (mul_nonneg hbf.1 hbf.2.2), ?_⟩
  exact add_le_add hacc.2 (mul_le_of_le_one_left hbf.2.2 hbf.2.1)

theorem pointwise_bounds (args1 args2 : List String) (simC : String → String → ℚ)
    (w1 w2 : List (String × ℚ)) (pw uw diff : ℚ)
    (hsim : ∀ a b, 0 ≤ simC a b ∧ simC a b ≤ 1)
    (hw1 : ∀ kv ∈ w1, 0 ≤ kv.2) (hw2 : ∀ kv ∈ w2, 0 ≤ kv.2)
    (hdiff : 0 ≤ diff) (hpw : 0 ≤ pw) (huw : 0 ≤ uw) (hblend : pw + uw ≤ 1) :
    0 ≤ pointwise_similarity_weighted args1 args2 simC w1 w2 pw uw diff ∧
    pointwise_similarity_weighted args1 args2 simC w1 w2 pw uw diff ≤ 1 := by
  unfold pointwise_similarity_weighted
  split
  · norm_num
  · have hpos := posAccum_bounds simC w1 w2 args1 args2 hsim hw1 hw2
    have hun := unordAccum_bounds simC w1 w2 args1 args2 hsim hw1 hw2
    have hsp : 0 ≤ (if (posAccum simC w1 w2 args1 args2).2 > 0 then
          (posAccum simC w1 w2 args1 args2).1 / ((posAccum simC w1 w2 args1 args2).2 + diff)
        else 0) ∧
        (if (posAccum simC w1 w2 args1 args2).2 > 0 then
          (posAccum simC w1 w2 args1 args2).1 / ((posAccum simC w1 w2 args1 args2).2 + diff)
        else 0) ≤ 1 := by
      split
      · rename_i hgt
        have hden : 0 < (posAccum simC w1 w2 args1 args2).2 + diff := by linarith
        exact ⟨div_nonneg hpos.1 (le_of_lt hden),
          (div_le_one hden).mpr (by linarith [hpos.2])⟩
      · norm_num
    have hsu : 0 ≤ (if (unordAccum simC w1 w2 args1 args2).2 > 0 then
          (unordAccum simC w1 w2 args1 args2).1 / ((unordAccum simC w1 w2 args1 args2).2 + diff)
        else 0) ∧
        (if (unordAccum simC w1 w2 args1 args2).2 > 0 then
          (unordAccum simC w1 w2 args1 args2).1 / ((unordAccum simC w1 w2 args1 args2).2 + diff)
        else 0) ≤ 1 := by
      split
      · rename_i hgt
        have hden : 0 < (unordAccum simC w1 w2 args1 args2).2 + diff := by linarith
        exact ⟨div_nonneg hun.1 (le_of_lt hden),
          (div_le_one hden).mpr (by linarith [hun.2])⟩
      · norm_num
    constructor
    · exact add_nonneg (mul_nonneg hpw hsp.1) (mul_nonneg huw hsu.1)
    · calc pw * _ + uw * _ ≤ pw * 1 + uw * 1 :=
            add_le_add (mul_le_mul_of_nonneg_left hsp.2 hpw)
              (mul_le_mul_of_nonneg_left hsu.2 huw)
        _ = pw + uw := by ring
        _ ≤ 1 := hblend

theorem uniformWeights_nonneg (args : List String) :
    ∀ kv ∈ uniformWeights args, 0 ≤ kv.2 := by
  intro kv hkv
  obtain ⟨k, _, rfl⟩ := List.mem_map.mp hkv
  norm_num

theorem simLiteral_flat_bounds (simC : String → String → ℚ) (o1 o2 : Literal)
    (diff : ℚ) (hsim : ∀ a b, 0 ≤ simC a b ∧ simC a b ≤ 1) (hdiff : 0 ≤ diff) :
    0 ≤ simLiteral_flat simC o1 o2 diff ∧ simLiteral_flat simC o1 o2 diff ≤ 1 := by
  unfold simLiteral_flat
  have hargs := pointwise_bounds o1.2 o2.2 simC (uniformWeights o1.2) (uniformWeights o2.2)
    (8/10) (2/10) diff hsim (uniformWeights_nonneg o1.2) (uniformWeights_nonneg o2.2)
    hdiff (by norm_num) (by norm_num) (by norm_num)
  have hp := hsim o1.1 o2.1
  constructor
  · linarith [hp.1, hargs.1]
  · linarith [hp.2, hargs.2]

theorem impArgsTotal_nonneg (cw : List (String × ℚ)) (args1 args2 : List String)
    (hc : ∀ kv ∈ cw, 0 ≤ kv.2) : 0 ≤ impArgsTotal cw args1 args2 := by
  unfold impArgsTotal
  refine List.sum_nonneg ?_
  intro x hx
  obtain ⟨a1, _, rfl⟩ := List.mem_map.mp hx
  refine List.sum_nonneg ?_
  intro y hy
  obtain ⟨a2, _, rfl⟩ := List.mem_map.mp hy
  exact mul_nonneg (getD_nonneg _ _ _ hc le_rfl) (getD_nonneg _ _ _ hc le_rfl)

theorem simLiteral_bounds (simC : String → String → ℚ)
    (pw cw : List (String × ℚ)) (diff : ℚ) (o1 o2 : Literal)
    (hsim : ∀ a b, 0 ≤ simC a b ∧ simC a b ≤ 1)
    (hp : ∀ kv ∈ pw, 0 ≤ kv.2) (hc : ∀ kv ∈ cw, 0 ≤ kv.2) (hdiff : 0 ≤ diff) :
    0 ≤ simLiteral simC pw cw diff o1 o2 ∧ simLiteral simC pw cw diff o1 o2 ≤ 1 := by
  simp only [simLiteral]
  have hip : 0 ≤ getD pw o1.1 0 * getD pw o2.1 0 :=
    mul_nonneg (getD_nonneg _ _ _ hp le_rfl) (getD_nonneg _ _ _ hp le_rfl)
  have hia := impArgsTotal_nonneg cw o1.2 o2.2 hc
  have hsp := hsim o1.1 o2.1
  have hsa := pointwise_bounds o1.2 o2.2 simC cw cw (8/10) (2/10) diff hsim hc hc
    hdiff (by norm_num) (by norm_num) (by norm_num)
  by_cases hgt : getD pw o1.1 0 * getD pw o2.1 0 + impArgsTotal cw o1.2 o2.2 > 0
  · rw [if_pos hgt]
    have hden : (0 : ℚ) < getD pw o1.1 0 * getD pw o2.1 0 + impArgsTotal cw o1.2 o2.2 + diff := by
      linarith
    constructor
    · exact div_nonneg (add_nonneg (mul_nonneg hsp.1 hip) (mul_nonneg hsa.1 hia))
        (le_of_lt hden)
    · rw [div_le_one hden]
      have h1 : simC o1.1 o2.1 * (getD pw o1.1 0 * getD pw o2.1 0) ≤
          getD pw o1.1 0 * getD pw o2.1 0 := mul_le_of_le_one_left hip hsp.2
      have h2 : pointwise_similarity_weighted o1.2 o2.2 simC cw cw (8/10) (2/10) diff *
          impArgsTotal cw o1.2 o2.2 ≤ impArgsTotal cw o1.2 o2.2 :=
        mul_le_of_le_one_left hia hsa.2
      linarith
  · rw [if_neg hgt]
    norm_num

theorem membership_bounds {γ : Type} (sim : γ → γ → ℚ) (p : ℕ) (agg : List ℚ → ℚ)
    (x : γ) (S : List γ)
    (hsim : ∀ x y, 0 ≤ sim x y ∧ sim x y ≤ 1) (hagg : AggBounded agg) :
    0 ≤ membership sim p agg x S ∧ membership sim p agg x S ≤ 1 := by
  unfold membership
  refine hagg _ ?_
  intro s hs
  obtain ⟨y, _, rfl⟩ := List.mem_map.mp hs
  exact ⟨pow_nonneg (hsim x y).1 p, pow_le_one₀ (hsim x y).1 (hsim x y).2⟩

theorem tversky_bounds {γ : Type} (X Y : List γ) (sim : γ → γ → ℚ)
    (alpha beta : ℚ) (p : ℕ) (agg : List ℚ → ℚ)
    (hsim : ∀ x y, 0 ≤ sim x y ∧ sim x y ≤ 1) (hagg : AggBounded agg)
    (hA : 0 ≤ alpha) (hB : 0 ≤ beta) :
    0 ≤ generalized_tversky_similarity X Y sim alpha beta p agg ∧
    generalized_tversky_similarity X Y sim alpha beta p agg ≤ 1 := by
  simp only [generalized_tversky_similarity]
  split
  · norm_num
  · have hmX : ∀ m ∈ X.map (fun x => membership sim p agg x Y), 0 ≤ m ∧ m ≤ 1 := by
      intro m hm
      obtain ⟨x, _, rfl⟩ := List.mem_map.mp hm
      exact membership_bounds sim p agg x Y hsim hagg
    have hmY : ∀ m ∈ Y.map (fun y => membership sim p agg y X), 0 ≤ m ∧ m ≤ 1 := by
      intro m hm
      obtain ⟨y, _, rfl⟩ := List.mem_map.mp hm
      exact membership_bounds sim p agg y X hsim hagg
    have hXs : 0 ≤ (X.map (fun x => membership sim p agg x Y)).sum :=
      List.sum_nonneg (fun m hm => (hmX m hm).1)
    have hYs : 0 ≤ (Y.map (fun y => membership sim p agg y X)).sum :=
      List.sum_nonneg (fun m hm => (hmY m hm).1)
    have hbs : 0 ≤ ((X.map (fun x => membership sim p agg x Y)).map (fun s => 1 - s)).sum := by
      refine List.sum_nonneg ?_
      intro t ht
      obtain ⟨m, hm, rfl⟩ := List.mem_map.mp ht
      linarith [(hmX m hm).2]
    have hcs : 0 ≤ ((Y.map (fun y => membership sim p agg y X)).map (fun s => 1 - s)).sum := by
      refine List.sum_nonneg ?_
      intro t ht
      obtain ⟨m, hm, rfl⟩ := List.mem_map.mp ht
      linarith [(hmY m hm).2]
    have ha : 0 ≤ ((X.map (fun x => membership sim p agg x Y)).sum +
        (Y.map (fun y => membership sim p agg y X)).sum) / 2 := by positivity
    by_cases hden : ((X.map (fun x => membership sim p agg x Y)).sum +
          (Y.map (fun y => membership sim p agg y X)).sum) / 2 +
        alpha * ((X.map (fun x => membership sim p agg x Y)).map (fun s => 1 - s)).sum +
        beta * ((Y.map (fun y => membership sim p agg y X)).map (fun s => 1 - s)).sum > 0
    · rw [if_pos hden]
      constructor
      · exact div_nonneg ha (le_of_lt hden)
      · rw [div_le_one hden]
        have h1 : 0 ≤ alpha * ((X.map (fun x => membership sim p agg x Y)).map
            (fun s => 1 - s)).sum := mul_nonneg hA hbs
        have h2 : 0 ≤ beta * ((Y.map (fun y => membership sim p agg y X)).map
            (fun s => 1 - s)).sum := mul_nonneg hB hcs
        linarith
    · rw [if_neg hden]
      norm_num

theorem mergeDicts_nonneg {α : Type} (d1 d2 : List (α × ℚ))
    (h1 : ∀ kv ∈ d1, 0 ≤ kv.2) (h2 : ∀ kv ∈ d2, 0 ≤ kv.2) :
    ∀ kv ∈ mergeDicts d1 d2, 0 ≤ kv.2 := by
  intro kv hkv
  rcases List.mem_append.mp hkv with h | h
  · exact h2 kv h
  · exact h1 kv h

theorem diffOf_nonneg (pw1 pw2 cwt1 cwt2 : List (String × ℚ))
    (hbudget : sumValues pw1 + sumValues pw2 + (sumValues cwt1 + sumValues cwt2) ≤ 2) :
    0 ≤ diffOf pw1 pw2 cwt1 cwt2 := by
  simp only [diffOf]
  split
  · exact le_refl 0
  · linarith

/-- Bounds for the final weighted mean over `(score, weight)` pairs. -/
theorem weighted_mean_bounds (ws : List (ℚ × ℚ))
    (h : ∀ sw ∈ ws, (0 ≤ sw.1 ∧ sw.1 ≤ 1) ∧ 0 ≤ sw.2) :
    0 ≤ (if (ws.map (fun sw => sw.2)).sum > 0 then
        (ws.map (fun sw => sw.1 * sw.2)).sum / (ws.map (fun sw => sw.2)).sum else 0) ∧
    (if (ws.map (fun sw => sw.2)).sum > 0 then
        (ws.map (fun sw => sw.1 * sw.2)).sum / (ws.map (fun sw => sw.2)).sum else 0) ≤ 1 := by
  by_cases ht : (ws.map (fun sw => sw.2)).sum > 0
  · rw [if_pos ht]
    have hnum : 0 ≤ (ws.map (fun sw => sw.1 * sw.2)).sum := by
      refine List.sum_nonneg ?_
      intro x hx
      obtain ⟨sw, hsw, rfl⟩ := List.mem_map.mp hx
      exact mul_nonneg ((h sw hsw).1).1 (h sw hsw).2
    have hle : (ws.map (fun sw => sw.1 * sw.2)).sum ≤ (ws.map (fun sw => sw.2)).sum := by
      refine List.sum_le_sum ?_
      intro sw hsw
      exact mul_le_of_le_one_left (h sw hsw).2 ((h sw hsw).1).2
    exact ⟨div_nonneg hnum (le_of_lt ht), (div_le_one ht).mpr hle⟩
  · rw [if_neg ht]
    norm_num

/-- The final score of a successful `simFormulaSet` call lies in `[0,1]`
under the amended well-formedness conditions. -/
theorem simFormulaSet_ok_bounds (simC : String → String → ℚ) (F1 F2 : Formula)
    (cw1 cw2 : List (Clause × ℚ)) (pw1 pw2 cwt1 cwt2 : List (String × ℚ))
    (ps : ClauseParams) (q : ℚ)
    (hsim : ∀ a b, 0 ≤ simC a b ∧ simC a b ≤ 1)
    (hcw1 : ∀ kv ∈ cw1, 0 ≤ kv.2) (hcw2 : ∀ kv ∈ cw2, 0 ≤ kv.2)
    (hpw1 : ∀ kv ∈ pw1, 0 ≤ kv.2) (hpw2 : ∀ kv ∈ pw2, 0 ≤ kv.2)
    (hct1 : ∀ kv ∈ cwt1, 0 ≤ kv.2) (hct2 : ∀ kv ∈ cwt2, 0 ≤ kv.2)
    (hagg : AggBounded ps.agg) (hA : 0 ≤ ps.alpha) (hB : 0 ≤ ps.beta)
    (hbudget : sumValues pw1 + sumValues pw2 + (sumValues cwt1 + sumValues cwt2) ≤ 2)
    (hq : simFormulaSet simC F1 F2 cw1 cw2 pw1 pw2 cwt1 cwt2 (some ps) = .ok q) :
    0 ≤ q ∧ q ≤ 1 := by
  have hdiff := diffOf_nonneg pw1 pw2 cwt1 cwt2 hbudget
  have hmp := mergeDicts_nonneg pw1 pw2 hpw1 hpw2
  have hmc := mergeDicts_nonneg cwt1 cwt2 hct1 hct2
  simp only [simFormulaSet] at hq
  cases hA1 : (sortClauses F1).isEmpty <;> cases hA2 : (sortClauses F2).isEmpty <;>
    simp only [hA1, hA2, Bool.false_eq_true, if_true, if_false] at hq
  · -- both non-empty: the weighted rescoring path
    have hws : ∀ sw ∈ (bestMatches (flatClauseSim simC) (sortClauses F1) (sortClauses F2)).map
        (fun pr => (weightedClauseSim simC (mergeDicts pw1 pw2) (mergeDicts cwt1 cwt2)
            (diffOf pw1 pw2 cwt1 cwt2) ps pr.1 pr.2,
          (getD cw1 pr.1 1 + getD cw2 pr.2 1) / 2)),
        (0 ≤ sw.1 ∧ sw.1 ≤ 1) ∧ 0 ≤ sw.2 := by
      intro sw hsw
      obtain ⟨pr, _, rfl⟩ := List.mem_map.mp hsw
      constructor
      · exact tversky_bounds pr.1 pr.2 _ ps.alpha ps.beta ps.p ps.agg
          (fun x y => simLiteral_bounds simC _ _ _ x y hsim hmp hmc hdiff) hagg hA hB
      · have h1 : (0:ℚ) ≤ getD cw1 pr.1 1 := getD_nonneg _ _ _ hcw1 (by norm_num)
        have h2 : (0:ℚ) ≤ getD cw2 pr.2 1 := getD_nonneg _ _ _ hcw2 (by norm_num)
        positivity
    have hbounds := weighted_mean_bounds _ hws
    split at hq
    · rw [Except.ok.injEq] at hq
      subst hq
      rename_i hgt
      rw [if_pos hgt] at hbounds
      exact hbounds
    · rw [Except.ok.injEq] at hq
      subst hq
      norm_num
  · cases hq
  · cases hq
  · rw [Except.ok.injEq] at hq
    subst hq
    norm_num

/-- Claim C2 counterexample: all weights are `≥ 0`, yet the final
`simFormulaSet` score is `1906/861 > 1` (the combined predicate+constant
weight budget exceeds 2, making the correction term negative). -/
theorem C2_bounds_cex :
    simFormulaSet simStub [[(("P", ["a"]) : Literal)]] [[(("P", ["a"]) : Literal)]]
      [] [] [("P", 1/10)] [("P", 1/10)] [("a", 5)] [("a", 5)]
      (some ⟨1/2, 1/2, 1, agg_max⟩) = .ok (1906/861) ∧ (1 : ℚ) < 1906/861 := by
  constructor
  · simp +decide only [simFormulaSet, mergeDicts, diffOf, sumValues, sortClauses,
      clauseLe, safe_sort_clause, litListLt, litLt, argsLt, strLt, charListLt,
      List.insertionSort, List.orderedInsert, bestMatches, insertKey, maxBy,
      flatClauseSim, weightedClauseSim, generalized_tversky_similarity, membership,
      agg_max, simLiteral_flat, simLiteral, pointwise_similarity_weighted, posAccum,
      unordAccum, bestMatchFold, uniformWeights, impArgsTotal, getD, simStub,
      List.foldl, List.map, List.zip, List.zipWith, List.sum, List.isEmpty]
    norm_num [abs_of_nonneg, abs_of_nonpos]
  · norm_num

/-- Claim C2 (corrected): the `[0,1]` bounds hold for the final score and for
every intermediate literal/clause score provided, in addition to the claim's
`weights ≥ 0` and `simC ∈ [0,1]` conditions, the correction term is
non-negative (combined predicate+constant budget at most 2 — violated inputs
overshoot, see the counterexample), the Tversky coefficients are
non-negative, and the aggregation maps `[0,1]` lists into `[0,1]`. -/
theorem C2_bounds_amended :
    (∀ (args1 args2 : List String) (simC : String → String → ℚ)
        (w1 w2 : List (String × ℚ)) (diff : ℚ),
      (∀ a b, 0 ≤ simC a b ∧ simC a b ≤ 1) →
      (∀ kv ∈ w1, 0 ≤ kv.2) → (∀ kv ∈ w2, 0 ≤ kv.2) → 0 ≤ diff →
      0 ≤ pointwise_similarity_weighted args1 args2 simC w1 w2 (8/10) (2/10) diff ∧
      pointwise_similarity_weighted args1 args2 simC w1 w2 (8/10) (2/10) diff ≤ 1) ∧
    (∀ (simC : String → String → ℚ) (o1 o2 : Literal) (diff : ℚ),
      (∀ a b, 0 ≤ simC a b ∧ simC a b ≤ 1) → 0 ≤ diff →
      0 ≤ simLiteral_flat simC o1 o2 diff ∧ simLiteral_flat simC o1 o2 diff ≤ 1) ∧
    (∀ (simC : String → String → ℚ) (pw cw : List (String × ℚ)) (diff : ℚ)
        (o1 o2 : Literal),
      (∀ a b, 0 ≤ simC a b ∧ simC a b ≤ 1) →
      (∀ kv ∈ pw, 0 ≤ kv.2) → (∀ kv ∈ cw, 0 ≤ kv.2) → 0 ≤ diff →
      0 ≤ simLiteral simC pw cw diff o1 o2 ∧ simLiteral simC pw cw diff o1 o2 ≤ 1) ∧
    (∀ (γ : Type) (X Y : List γ) (sim : γ → γ → ℚ) (alpha beta : ℚ) (p : ℕ)
        (agg : List ℚ → ℚ),
      (∀ x y, 0 ≤ sim x y ∧ sim x y ≤ 1) → AggBounded agg → 0 ≤ alpha → 0 ≤ beta →
      0 ≤ generalized_tversky_similarity X Y sim alpha beta p agg ∧
      generalized_tversky_similarity X Y sim alpha beta p agg ≤ 1) ∧
    (∀ (simC : String → String → ℚ) (F1 F2 : Formula) (cw1 cw2 : List (Clause × ℚ))
        (pw1 pw2 cwt1 cwt2 : List (String × ℚ)) (ps : ClauseParams) (q : ℚ),
      (∀ a b, 0 ≤ simC a b ∧ simC a b ≤ 1) →
      (∀ kv ∈ cw1, 0 ≤ kv.2) → (∀ kv ∈ cw2, 0 ≤ kv.2) →
      (∀ kv ∈ pw1, 0 ≤ kv.2) → (∀ kv ∈ pw2, 0 ≤ kv.2) →
      (∀ kv ∈ cwt1, 0 ≤ kv.2) → (∀ kv ∈ cwt2, 0 ≤ kv.2) →
      AggBounded ps.agg → 0 ≤ ps.alpha → 0 ≤ ps.beta →
      sumValues pw1 + sumValues pw2 + (sumValues cwt1 + sumValues cwt2) ≤ 2 →
      simFormulaSet simC F1 F2 cw1 cw2 pw1 pw2 cwt1 cwt2 (some ps) = .ok q →
      0 ≤ q ∧ q ≤ 1) := by
  refine ⟨?_, ?_, ?_, ?_, ?_⟩
  · intro args1 args2 simC w1 w2 diff hsim hw1 hw2 hdiff
    exact pointwise_bounds args1 args2 simC w1 w2 (8/10) (2/10) diff hsim hw1 hw2
      hdiff (by norm_num) (by norm_num) (by norm_num)
  · intro simC o1 o2 diff hsim hdiff
    exact simLiteral_flat_bounds simC o1 o2 diff hsim hdiff
  · intro simC pw cw diff o1 o2 hsim hp hc hdiff
    exact simLiteral_bounds simC pw cw diff o1 o2 hsim hp hc hdiff
  · intro γ X Y sim alpha beta p agg hsim hagg hA hB
    exact tversky_bounds X Y sim alpha beta p agg hsim hagg hA hB
  · intro simC F1 F2 cw1 cw2 pw1 pw2 cwt1 cwt2 ps q hsim h1 h2 h3 h4 h5 h6 hagg hA hB hb hq
    exact simFormulaSet_ok_bounds simC F1 F2 cw1 cw2 pw1 pw2 cwt1 cwt2 ps q hsim
      h1 h2 h3 h4 h5 h6 hagg hA hB hb hq

/-- Witness for C2: the bounds at a concrete well-formed input (the zoo
scenario weights, which sum to 1 per side). -/
theorem C2_bounds_amended_witness :
    (0 ≤ simLiteral_flat simStub ("P", ["a"]) ("P", ["a"]) 0 ∧
      simLiteral_flat simStub ("P", ["a"]) ("P", ["a"]) 0 ≤ 1) ∧
    (0 ≤ (1 : ℚ) ∧ (1 : ℚ) ≤ 1) :=
  have hsim : ∀ a b, 0 ≤ simStub a b ∧ simStub a b ≤ 1 := by
    intro a b
    simp only [simStub]
    split <;> norm_num
  ⟨C2_bounds_amended.2.1 simStub ("P", ["a"]) ("P", ["a"]) 0 hsim le_rfl,
   by
    have h := C2_bounds_amended.2.2.2.2 simStub [[("P", ["a"])]] [[("P", ["a"])]]
      [] [] [("P", 1/2)] [("P", 1/2)] [("a", 1/2)] [("a", 1/2)]
      ⟨1/2, 1/2, 1, agg_max⟩ 1 hsim
      (by simp) (by simp) (by intro kv hkv; simp at hkv; subst hkv; norm_num)
      (by intro kv hkv; simp at hkv; subst hkv; norm_num)
      (by intro kv hkv; simp at hkv; subst hkv; norm_num)
      (by intro kv hkv; simp at hkv; subst hkv; norm_num)
      agg_max_bounded (by norm_num) (by norm_num)
      (by norm_num [sumValues])
      (by
        simp +decide only [simFormulaSet, mergeDicts, diffOf, sumValues, sortClauses,
          clauseLe, safe_sort_clause, litListLt, litLt, argsLt, strLt, charListLt,
          List.insertionSort, List.orderedInsert, bestMatches, insertKey, maxBy,
          flatClauseSim, weightedClauseSim, generalized_tversky_similarity, membership,
          agg_max, simLiteral_flat, simLiteral, pointwise_similarity_weighted, posAccum,
          unordAccum, bestMatchFold, uniformWeights, impArgsTotal, getD, simStub,
          List.foldl, List.map, List.zip, List.zipWith, List.sum, List.isEmpty]
        norm_num)
    exact h⟩

/-! ### Identity infrastructure (Claim C3) -/

/-- Accumulating folds of pair sums are sums over the mapped list. -/
theorem foldl_add_pair {α : Type} (g h : α → ℚ) (l : List α) (x y : ℚ) :
    l.foldl (fun acc e => (acc.1 + g e, acc.2 + h e)) (x, y) =
      (x + (l.map g).sum, y + (l.map h).sum) := by
  induction l generalizing x y with
  | nil => simp
  | cons e es ih => simp [ih, add_assoc]

/-- Relational invariant along two parallel `List.foldl`s over one list. -/
theorem foldl_rel {α β γ : Type} (f : β → α → β) (g : γ → α → γ) (l : List α)
    (b : β) (c : γ) (R : β → γ → Prop) (hbc : R b c)
    (hstep : ∀ acc acc' x, x ∈ l → R acc acc' → R (f acc x) (g acc' x)) :
    R (l.foldl f b) (l.foldl g c) := by
  induction l generalizing b c with
  | nil => exact hbc
  | cons x xs ih =>
    exact ih _ _ (hstep b c x (by simp) hbc)
      (fun a a' y hy h => hstep a a' y (by simp [hy]) h)

/-- A list of non-negative rationals with zero sum is all zeros. -/
theorem sum_nonneg_eq_zero {l : List ℚ} (h0 : ∀ x ∈ l, 0 ≤ x) (hs : l.sum = 0) :
    ∀ x ∈ l, x = 0 := by
  induction l with
  | nil => intro x hx; cases hx
  | cons a t ih =>
    have hts : 0 ≤ t.sum := List.sum_nonneg (fun x hx => h0 x (by simp [hx]))
    have ha : 0 ≤ a := h0 a (by simp)
    rw [List.sum_cons] at hs
    have ha0 : a = 0 := by linarith
    intro x hx
    rcases List.mem_cons.mp hx with rfl | hx'
    · exact ha0
    · exact ih (fun y hy => h0 y (by simp [hy])) (by linarith) x hx'

theorem le_foldl_max (t : List ℚ) (a : ℚ) : ∀ s ∈ a :: t, s ≤ t.foldl max a := by
  induction t generalizing a with
  | nil =>
    intro s hs
    rcases List.mem_cons.mp hs with rfl | h
    · exact le_refl s
    · cases h
  | cons b u ih =>
    intro s hs
    rw [List.foldl_cons]
    rcases List.mem_cons.mp hs with rfl | hs'
    · exact le_trans (le_max_left s b) (ih (max s b) (max s b) (by simp))
    · rcases List.mem_cons.mp hs' with rfl | hs''
      · exact le_trans (le_max_right a s) (ih (max a s) (max a s) (by simp))
      · exact ih (max a b) s (by simp [hs''])

theorem le_agg_max {l : List ℚ} {s : ℚ} (hs : s ∈ l) : s ≤ agg_max l := by
  cases l with
  | nil => cases hs
  | cons a t =>
    simp only [agg_max]
    exact le_foldl_max t a s hs

theorem agg_max_mem {l : List ℚ} (hl : l ≠ []) : agg_max l ∈ l := by
  cases l with
  | nil => exact absurd rfl hl
  | cons a t =>
    simp only [agg_max]
    refine foldl_inv _ t a (fun x => x ∈ a :: t) (by simp) ?_
    intro acc x hx hacc
    rcases max_choice acc x with h | h
    · rw [h]; exact hacc
    · rw [h]; simp [hx]

theorem agg_max_eq_one {l : List ℚ} (h1 : (1 : ℚ) ∈ l) (hle : ∀ s ∈ l, s ≤ 1) :
    agg_max l = 1 := by
  have ha : agg_max l ≤ 1 := by
    have := agg_max_mem (l := l) (by intro h; subst h; cases h1)
    exact hle _ this
  exact le_antisymm ha (le_agg_max h1)

theorem getD_append {α : Type} [DecidableEq α] (d1 d2 : List (α × ℚ)) (k : α)
    (dflt : ℚ) : getD (d1 ++ d2) k dflt = getD d1 k (getD d2 k dflt) := by
  induction d1 with
  | nil => simp [getD]
  | cons kv rest ih =>
    by_cases h : kv.1 = k <;> simp [getD, h, ih]

theorem getD_getD {α : Type} [DecidableEq α] (d : List (α × ℚ)) (k : α) (dflt : ℚ) :
    getD d k (getD d k dflt) = getD d k dflt := by
  induction d with
  | nil => simp [getD]
  | cons kv rest ih =>
    by_cases h : kv.1 = k
    · simp [getD, h]
    · simp only [getD, h, if_false]
      exact ih

/-- Self-merge of a weight map looks up like the map itself. -/
theorem getD_self_merge {α : Type} [DecidableEq α] (d : List (α × ℚ)) (k : α)
    (dflt : ℚ) : getD (mergeDicts d d) k dflt = getD d k dflt := by
  rw [mergeDicts, getD_append, getD_getD]

theorem zip_self {α : Type} (l : List α) : l.zip l = l.map (fun a => (a, a)) := by
  induction l with
  | nil => rfl
  | cons a t ih => simp [List.zip_cons_cons, ih]

theorem uniform_getD {args : List String} {a : String} (ha : a ∈ args) :
    getD (uniformWeights args) a 0 = 1 := by
  induction args with
  | nil => cases ha
  | cons b t ih =>
    rcases List.mem_cons.mp ha with rfl | ha'
    · simp [uniformWeights, getD]
    · by_cases hb : b = a
      · simp [uniformWeights, getD, hb]
      · simpa [uniformWeights, getD, hb] using ih ha'

theorem sum_map_one {α : Type} (l : List α) :
    (l.map (fun _ => (1 : ℚ))).sum = l.length := by
  induction l with
  | nil => simp
  | cons a t ih => simp [ih, add_comm]

/-- The two accumulators of the positional loop are plain sums. -/
theorem posAccum_eq (simC : String → String → ℚ) (w1 w2 : List (String × ℚ))
    (args1 args2 : List String) :
    posAccum simC w1 w2 args1 args2 =
      (((args1.zip args2).map
          (fun pr => getD w1 pr.1 0 * getD w2 pr.2 0 * simC pr.1 pr.2)).sum,
       ((args1.zip args2).map (fun pr => getD w1 pr.1 0 * getD w2 pr.2 0)).sum) := by
  have h := foldl_add_pair
    (fun pr : String × String => getD w1 pr.1 0 * getD w2 pr.2 0 * simC pr.1 pr.2)
    (fun pr : String × String => getD w1 pr.1 0 * getD w2 pr.2 0)
    (args1.zip args2) 0 0
  simpa [posAccum, mul_comm] using h

/-- The two accumulators of the unordered loop are plain sums. -/
theorem unordAccum_eq (simC : String → String → ℚ) (w1 w2 : List (String × ℚ))
    (args1 args2 : List String) :
    unordAccum simC w1 w2 args1 args2 =
      ((args1.map (fun a1 => (bestMatchFold simC (getD w1 a1 0) w2 a1 args2).1 *
          (bestMatchFold simC (getD w1 a1 0) w2 a1 args2).2)).sum,
       (args1.map (fun a1 => (bestMatchFold simC (getD w1 a1 0) w2 a1 args2).2)).sum) := by
  have h := foldl_add_pair
    (fun a1 : String => (bestMatchFold simC (getD w1 a1 0) w2 a1 args2).1 *
      (bestMatchFold simC (getD w1 a1 0) w2 a1 args2).2)
    (fun a1 : String => (bestMatchFold simC (getD w1 a1 0) w2 a1 args2).2)
    args1 0 0
  simpa [unordAccum] using h

theorem bestMatchFold_fst_mono (simC : String → String → ℚ) (w1v : ℚ)
    (w2 : List (String × ℚ)) (a1 : String) (args2 : List String) (b : ℚ × ℚ) :
    b.1 ≤ (args2.foldl (fun b a2 =>
      if simC a1 a2 > b.1 then (simC a1 a2, w1v * getD w2 a2 0) else b) b).1 := by
  induction args2 generalizing b with
  | nil => exact le_refl _
  | cons a2 rest ih =>
    rw [List.foldl_cons]
    refine le_trans ?_ (ih _)
    split
    · rename_i hgt
      exact le_of_lt hgt
    · exact le_refl _

theorem bestMatchFold_ge (simC : String → String → ℚ) (w1v : ℚ)
    (w2 : List (String × ℚ)) (a1 : String) (args2 : List String) :
    ∀ a2 ∈ args2, simC a1 a2 ≤ (bestMatchFold simC w1v w2 a1 args2).1 := by
  unfold bestMatchFold
  generalize hb : ((0 : ℚ), (0 : ℚ)) = b
  clear hb
  induction args2 generalizing b with
  | nil => intro a2 h; cases h
  | cons c cs ih =>
    intro a2 ha2
    rw [List.foldl_cons]
    rcases List.mem_cons.mp ha2 with rfl | h'
    · refine le_trans ?_ (bestMatchFold_fst_mono simC w1v w2 a1 cs _)
      show simC a1 a2 ≤
        (if simC a1 a2 > b.1 then (simC a1 a2, w1v * getD w2 a2 0) else b).1
      split
      · exact le_refl _
      · exact le_of_not_lt (by assumption)
    · exact ih _ a2 h'

theorem bestMatchFold_cases (simC : String → String → ℚ) (w1v : ℚ)
    (w2 : List (String × ℚ)) (a1 : String) (args2 : List String) :
    bestMatchFold simC w1v w2 a1 args2 = (0, 0) ∨
    ∃ y ∈ args2, bestMatchFold simC w1v w2 a1 args2 = (simC a1 y, w1v * getD w2 y 0) := by
  unfold bestMatchFold
  refine foldl_inv _ _ _ (fun b : ℚ × ℚ => b = (0, 0) ∨
    ∃ y ∈ args2, b = (simC a1 y, w1v * getD w2 y 0)) (Or.inl rfl) ?_
  intro b a2 ha2 hb
  dsimp only
  split
  · exact Or.inr ⟨a2, ha2, rfl⟩
  · exact hb

/-- The best similarity found does not depend on the weight maps. -/
theorem bestMatchFold_fst_parallel (simC : String → String → ℚ) (w1v w1v' : ℚ)
    (w2 w2' : List (String × ℚ)) (a1 : String) (args2 : List String) :
    (bestMatchFold simC w1v w2 a1 args2).1 = (bestMatchFold simC w1v' w2' a1 args2).1 := by
  unfold bestMatchFold
  refine foldl_rel _ _ args2 _ _ (fun b b' : ℚ × ℚ => b.1 = b'.1) rfl ?_
  intro acc acc' x _ h
  dsimp only
  rw [h]
  split <;> simp [h]

/-- With non-negative similarities, a zero best similarity means that no
update ever fired, so the recorded importance is zero as well. -/
theorem bestMatchFold_snd_zero (simC : String → String → ℚ) (w1v : ℚ)
    (w2 : List (String × ℚ)) (a1 : String) (args2 : List String)
    (_hsim : ∀ a b, 0 ≤ simC a b) :
    (bestMatchFold simC w1v w2 a1 args2).1 = 0 → (bestMatchFold simC w1v w2 a1 args2).2 = 0 := by
  unfold bestMatchFold
  have h := foldl_inv (fun (b : ℚ × ℚ) a2 =>
      if simC a1 a2 > b.1 then (simC a1 a2, w1v * getD w2 a2 0) else b) args2 (0, 0)
    (fun b : ℚ × ℚ => 0 ≤ b.1 ∧ (b.1 = 0 → b.2 = 0)) (by norm_num) ?_
  · exact h.2
  · intro b a2 _ hb
    dsimp only
    split
    · rename_i hgt
      have : 0 < simC a1 a2 := lt_of_le_of_lt hb.1 hgt
      exact ⟨le_of_lt this, fun h0 => absurd h0 (ne_of_gt this)⟩
    · exact hb

/-- Comparing an argument list with itself under uniform weights gives a
perfect pointwise score. -/
theorem pointwise_self (simC : String → String → ℚ) (args : List String)
    (hargs : args ≠ [])
    (hsim : ∀ a b, 0 ≤ simC a b ∧ simC a b ≤ 1) (hrefl : ∀ a, simC a a = 1) :
    pointwise_similarity_weighted args args simC
      (uniformWeights args) (uniformWeights args) (8/10) (2/10) 0 = 1 := by
  have hlen : (0 : ℚ) < args.length := by
    cases args with
    | nil => exact absurd rfl hargs
    | cons a t =>
      rw [List.length_cons]
      push_cast
      positivity
  have hpos : posAccum simC (uniformWeights args) (uniformWeights args) args args =
      ((args.length : ℚ), (args.length : ℚ)) := by
    rw [posAccum_eq, zip_self, List.map_map, List.map_map]
    have h1 : args.map ((fun pr : String × String =>
        getD (uniformWeights args) pr.1 0 * getD (uniformWeights args) pr.2 0 *
          simC pr.1 pr.2) ∘ fun a => (a, a)) = args.map (fun _ => (1 : ℚ)) :=
      List.map_congr_left (fun a ha => by
        simp [Function.comp, uniform_getD ha, hrefl a])
    have h2 : args.map ((fun pr : String × String =>
        getD (uniformWeights args) pr.1 0 * getD (uniformWeights args) pr.2 0) ∘
          fun a => (a, a)) = args.map (fun _ => (1 : ℚ)) :=
      List.map_congr_left (fun a ha => by simp [Function.comp, uniform_getD ha])
    rw [h1, h2, sum_map_one]
  have hbest : ∀ a1 ∈ args, bestMatchFold simC (getD (uniformWeights args) a1 0)
      (uniformWeights args) a1 args = (1, 1) := by
    intro a1 ha1
    have h1 : (bestMatchFold simC (getD (uniformWeights args) a1 0)
        (uniformWeights args) a1 args).1 = 1 := by
      have hge := bestMatchFold_ge simC (getD (uniformWeights args) a1 0)
        (uniformWeights args) a1 args a1 ha1
      rw [hrefl a1] at hge
      have hle := (bestMatchFold_bounds simC (getD (uniformWeights args) a1 0)
        (uniformWeights args) a1 args hsim
        (by rw [uniform_getD ha1]; norm_num) (uniformWeights_nonneg args)).2.1
      exact le_antisymm hle hge
    rcases bestMatchFold_cases simC (getD (uniformWeights args) a1 0)
        (uniformWeights args) a1 args with h | ⟨y, hy, h⟩
    · rw [h] at h1
      norm_num at h1
    · rw [h] at h1 ⊢
      simp only at h1
      rw [h1, uniform_getD ha1, uniform_getD hy]
      norm_num
  have hun : unordAccum simC (uniformWeights args) (uniformWeights args) args args =
      ((args.length : ℚ), (args.length : ℚ)) := by
    rw [unordAccum_eq]
    have h1 : args.map (fun a1 => (bestMatchFold simC (getD (uniformWeights args) a1 0)
        (uniformWeights args) a1 args).1 * (bestMatchFold simC
          (getD (uniformWeights args) a1 0) (uniformWeights args) a1 args).2) =
        args.map (fun _ => (1 : ℚ)) :=
      List.map_congr_left (fun a ha => by rw [hbest a ha]; norm_num)
    have h2 : args.map (fun a1 => (bestMatchFold simC (getD (uniformWeights args) a1 0)
        (uniformWeights args) a1 args).2) = args.map (fun _ => (1 : ℚ)) :=
      List.map_congr_left (fun a ha => by rw [hbest a ha])
    rw [h1, h2, sum_map_one]
  have hne : args.isEmpty = false := List.isEmpty_eq_false.mpr hargs
  simp only [pointwise_similarity_weighted, hne, Bool.or_self, Bool.false_eq_true,
    if_false, hpos, hun]
  rw [if_pos hlen, add_zero, div_self (ne_of_gt hlen)]
  norm_num

/-- A literal compared to itself scores `1` in flat mode (non-empty
arguments, reflexive bounded atomic similarity). -/
theorem simLiteral_flat_self (simC : String → String → ℚ) (l : Literal)
    (hargs : l.2 ≠ [])
    (hsim : ∀ a b, 0 ≤ simC a b ∧ simC a b ≤ 1) (hrefl : ∀ a, simC a a = 1) :
    simLiteral_flat simC l l 0 = 1 := by
  unfold simLiteral_flat
  rw [hrefl l.1, pointwise_self simC l.2 hargs hsim hrefl]
  norm_num

/-- A clause compared to itself scores `1` in the flat Tversky phase. -/
theorem flatClauseSim_self (simC : String → String → ℚ) (c : Clause)
    (hc : c ≠ []) (hargs : ∀ l ∈ c, l.2 ≠ [])
    (hsim : ∀ a b, 0 ≤ simC a b ∧ simC a b ≤ 1) (hrefl : ∀ a, simC a a = 1) :
    flatClauseSim simC c c = 1 := by
  have hmemb : ∀ x ∈ c, membership (fun l1 l2 => simLiteral_flat simC l1 l2 0) 1 agg_max x c = 1 := by
    intro x hx
    unfold membership
    refine agg_max_eq_one ?_ ?_
    · have : simLiteral_flat simC x x 0 ^ 1 = 1 := by
        rw [pow_one, simLiteral_flat_self simC x (hargs x hx) hsim hrefl]
      rw [← this]
      exact List.mem_map.mpr ⟨x, hx, rfl⟩
    · intro s hs
      obtain ⟨y, _, rfl⟩ := List.mem_map.mp hs
      rw [pow_one]
      exact (simLiteral_flat_bounds simC x y 0 hsim le_rfl).2
  have hlen : (0 : ℚ) < c.length := by
    cases c with
    | nil => exact absurd rfl hc
    | cons a t =>
      rw [List.length_cons]
      push_cast
      positivity
  have hmap : c.map (fun x => membership (fun l1 l2 => simLiteral_flat simC l1 l2 0) 1 agg_max x c) =
      c.map (fun _ => (1 : ℚ)) := List.map_congr_left (fun x hx => hmemb x hx)
  have hzsum : ((c.map (fun _ => (1:ℚ))).map (fun s => 1 - s)).sum = 0 := by
    refine List.sum_eq_zero ?_
    intro x hx
    rw [List.map_map] at hx
    obtain ⟨y, _, rfl⟩ := List.mem_map.mp hx
    simp
  simp only [flatClauseSim, generalized_tversky_similarity]
  rw [List.isEmpty_eq_false.mpr hc]
  simp only [Bool.or_self, Bool.false_eq_true, if_false]
  rw [hmap, hzsum, sum_map_one]
  have h2 : ((c.length : ℚ) + c.length) / 2 = c.length := by ring
  have hd : (c.length : ℚ) + 1 * 0 + 1 * 0 = c.length := by ring
  rw [h2, hd, if_pos hlen, div_self (ne_of_gt hlen)]

theorem sum_map_sub {α : Type} (g h : α → ℚ) (l : List α) :
    (l.map (fun e => g e - h e)).sum = (l.map g).sum - (l.map h).sum := by
  induction l with
  | nil => simp
  | cons a t ih =>
    simp only [List.map_cons, List.sum_cons, ih]
    ring

/-- If `g ≤ h` pointwise on a list and the mapped sums agree, the functions
agree on every member. -/
theorem per_term_eq {α : Type} {l : List α} (g h : α → ℚ)
    (hle : ∀ e ∈ l, g e ≤ h e) (hsum : (l.map g).sum = (l.map h).sum) :
    ∀ e ∈ l, g e = h e := by
  have hz : (l.map (fun e => h e - g e)).sum = 0 := by
    rw [sum_map_sub h g l, hsum, sub_self]
  have hall := sum_nonneg_eq_zero (l := l.map (fun e => h e - g e))
    (fun x hx => by
      obtain ⟨e, he, rfl⟩ := List.mem_map.mp hx
      linarith [hle e he]) hz
  intro e he
  have := hall (h e - g e) (List.mem_map.mpr ⟨e, he, rfl⟩)
  linarith

theorem exists_pos_of_sum_pos {l : List ℚ} (h : 0 < l.sum) : ∃ x ∈ l, 0 < x := by
  by_contra hc
  push_neg at hc
  have : l.sum ≤ 0 := by
    have : l.sum ≤ (l.map (fun _ => (0:ℚ))).sum := by
      have := List.sum_le_sum (l := l) (f := fun x => x) (g := fun _ => (0:ℚ))
        (fun i hi => hc i hi)
      simpa using this
    simpa using this
  linarith

theorem sum_pos_of_mem {l : List ℚ} {a : ℚ} (h0 : ∀ x ∈ l, 0 ≤ x) (ha : a ∈ l)
    (hpos : 0 < a) : 0 < l.sum :=
  lt_of_lt_of_le hpos (List.single_le_sum h0 a ha)

/-- Decomposition of a perfect flat clause score: both clauses are non-empty
and every literal on either side has a flat-perfect partner on the other. -/
theorem flat_one_memberships (simC : String → String → ℚ) (c1 c2 : Clause)
    (hsim : ∀ a b, 0 ≤ simC a b ∧ simC a b ≤ 1)
    (hflat : flatClauseSim simC c1 c2 = 1) :
    c1 ≠ [] ∧ c2 ≠ [] ∧
    (∀ x ∈ c1, ∃ y ∈ c2, simLiteral_flat simC x y 0 = 1) ∧
    (∀ y ∈ c2, ∃ x ∈ c1, simLiteral_flat simC y x 0 = 1) := by
  simp only [flatClauseSim, generalized_tversky_similarity] at hflat
  by_cases h1 : c1 = []
  · rw [List.isEmpty_iff.mpr h1] at hflat
    norm_num at hflat
  by_cases h2 : c2 = []
  · rw [List.isEmpty_iff.mpr h2] at hflat
    norm_num at hflat
  rw [List.isEmpty_eq_false.mpr h1, List.isEmpty_eq_false.mpr h2] at hflat
  simp only [Bool.or_self, Bool.false_eq_true, if_false] at hflat
  set flatS := fun l1 l2 => simLiteral_flat simC l1 l2 0 with hflatS
  have hmb : ∀ (x : Literal) (S : List Literal),
      0 ≤ membership flatS 1 agg_max x S ∧ membership flatS 1 agg_max x S ≤ 1 :=
    fun x S => membership_bounds flatS 1 agg_max x S
      (fun a b => simLiteral_flat_bounds simC a b 0 hsim le_rfl) agg_max_bounded
  set M1 := c1.map (fun x => membership flatS 1 agg_max x c2) with hM1
  set M2 := c2.map (fun y => membership flatS 1 agg_max y c1) with hM2
  have hM1mem : ∀ m ∈ M1, 0 ≤ m ∧ m ≤ 1 := by
    intro m hm
    obtain ⟨x, _, rfl⟩ := List.mem_map.mp hm
    exact hmb x c2
  have hM2mem : ∀ m ∈ M2, 0 ≤ m ∧ m ≤ 1 := by
    intro m hm
    obtain ⟨y, _, rfl⟩ := List.mem_map.mp hm
    exact hmb y c1
  have hbnn : 0 ≤ (M1.map (fun s => 1 - s)).sum :=
    List.sum_nonneg (fun t ht => by
      obtain ⟨m, hm, rfl⟩ := List.mem_map.mp ht
      linarith [(hM1mem m hm).2])
  have hcnn : 0 ≤ (M2.map (fun s => 1 - s)).sum :=
    List.sum_nonneg (fun t ht => by
      obtain ⟨m, hm, rfl⟩ := List.mem_map.mp ht
      linarith [(hM2mem m hm).2])
  by_cases hden : (M1.sum + M2.sum) / 2 + 1 * (M1.map (fun s => 1 - s)).sum +
      1 * (M2.map (fun s => 1 - s)).sum > 0
  · rw [if_pos hden] at hflat
    have ha : (M1.sum + M2.sum) / 2 = (M1.sum + M2.sum) / 2 +
        1 * (M1.map (fun s => 1 - s)).sum + 1 * (M2.map (fun s => 1 - s)).sum := by
      rw [div_eq_iff (ne_of_gt hden)] at hflat
      linarith [hflat]
    have hb0 : (M1.map (fun s => 1 - s)).sum = 0 := by linarith
    have hc0 : (M2.map (fun s => 1 - s)).sum = 0 := by linarith
    have hall1 : ∀ m ∈ M1, m = 1 := by
      intro m hm
      have := sum_nonneg_eq_zero (l := M1.map (fun s => 1 - s))
        (fun t ht => by
          obtain ⟨m', hm', rfl⟩ := List.mem_map.mp ht
          linarith [(hM1mem m' hm').2]) hb0 (1 - m)
        (List.mem_map.mpr ⟨m, hm, rfl⟩)
      linarith
    have hall2 : ∀ m ∈ M2, m = 1 := by
      intro m hm
      have := sum_nonneg_eq_zero (l := M2.map (fun s => 1 - s))
        (fun t ht => by
          obtain ⟨m', hm', rfl⟩ := List.mem_map.mp ht
          linarith [(hM2mem m' hm').2]) hc0 (1 - m)
        (List.mem_map.mpr ⟨m, hm, rfl⟩)
      linarith
    refine ⟨h1, h2, ?_, ?_⟩
    · intro x hx
      have hmx : membership flatS 1 agg_max x c2 = 1 :=
        hall1 _ (List.mem_map.mpr ⟨x, hx, rfl⟩)
      unfold membership at hmx
      have hmem := agg_max_mem (l := c2.map (fun y => flatS x y ^ 1))
        (by simp [h2])
      rw [hmx] at hmem
      obtain ⟨y, hy, hy1⟩ := List.mem_map.mp hmem
      exact ⟨y, hy, by rw [hflatS] at hy1; simpa using hy1⟩
    · intro y hy
      have hmy : membership flatS 1 agg_max y c1 = 1 :=
        hall2 _ (List.mem_map.mpr ⟨y, hy, rfl⟩)
      unfold membership at hmy
      have hmem := agg_max_mem (l := c1.map (fun x => flatS y x ^ 1))
        (by simp [h1])
      rw [hmy] at hmem
      obtain ⟨x, hx, hx1⟩ := List.mem_map.mp hmem
      exact ⟨x, hx, by rw [hflatS] at hx1; simpa using hx1⟩
  · rw [if_neg hden] at hflat
    norm_num at hflat

theorem guarded_ratio_bounds (n m d : ℚ) (hn : 0 ≤ n) (hnm : n ≤ m) (hd : 0 ≤ d) :
    0 ≤ (if m > 0 then n / (m + d) else 0) ∧ (if m > 0 then n / (m + d) else 0) ≤ 1 := by
  split
  · rename_i hm
    have hmd : 0 < m + d := by linarith
    exact ⟨div_nonneg hn (le_of_lt hmd), (div_le_one hmd).mpr (by linarith)⟩
  · norm_num

/-- A flat-perfect literal pair is also perfect under the weighted scorer,
provided the predicate and constant weights of the two literals are
positive and the correction term is zero. -/
theorem simLiteral_eq_one_of_flat (simC : String → String → ℚ)
    (mp mc : List (String × ℚ)) (x y : Literal)
    (hsim : ∀ a b, 0 ≤ simC a b ∧ simC a b ≤ 1)
    (hpx : 0 < getD mp x.1 0) (hpy : 0 < getD mp y.1 0)
    (hcx : ∀ a ∈ x.2, 0 < getD mc a 0) (hcy : ∀ a ∈ y.2, 0 < getD mc a 0)
    (hflat : simLiteral_flat simC x y 0 = 1) :
    simLiteral simC mp mc 0 x y = 1 := by
  -- Step 1: both flat components are 1.
  have hsa_bounds := pointwise_bounds x.2 y.2 simC (uniformWeights x.2)
    (uniformWeights y.2) (8/10) (2/10) 0 hsim (uniformWeights_nonneg _)
    (uniformWeights_nonneg _) le_rfl (by norm_num) (by norm_num) (by norm_num)
  simp only [simLiteral_flat] at hflat
  have hsp : simC x.1 y.1 = 1 := by
    have h1 := (hsim x.1 y.1).2
    linarith [hsa_bounds.2]
  have hsa : pointwise_similarity_weighted x.2 y.2 simC (uniformWeights x.2)
      (uniformWeights y.2) (8/10) (2/10) 0 = 1 := by
    have h1 := (hsim x.1 y.1).2
    linarith [hsa_bounds.2]
  -- Step 2: decompose the flat argument score.
  have hx2 : x.2 ≠ [] := by
    intro hx2
    rw [pointwise_similarity_weighted, List.isEmpty_iff.mpr hx2] at hsa
    norm_num at hsa
  have hy2 : y.2 ≠ [] := by
    intro hy2
    rw [pointwise_similarity_weighted, List.isEmpty_iff.mpr hy2] at hsa
    norm_num at hsa
  simp only [pointwise_similarity_weighted, List.isEmpty_eq_false.mpr hx2,
    List.isEmpty_eq_false.mpr hy2, Bool.or_self, Bool.false_eq_true, if_false] at hsa
  set PU := posAccum simC (uniformWeights x.2) (uniformWeights y.2) x.2 y.2 with hPU
  set UU := unordAccum simC (uniformWeights x.2) (uniformWeights y.2) x.2 y.2 with hUU
  have hPUb := posAccum_bounds simC (uniformWeights x.2) (uniformWeights y.2) x.2 y.2
    hsim (uniformWeights_nonneg _) (uniformWeights_nonneg _)
  have hUUb := unordAccum_bounds simC (uniformWeights x.2) (uniformWeights y.2) x.2 y.2
    hsim (uniformWeights_nonneg _) (uniformWeights_nonneg _)
  have hPUr := guarded_ratio_bounds PU.1 PU.2 0 hPUb.1 hPUb.2 le_rfl
  have hUUr := guarded_ratio_bounds UU.1 UU.2 0 hUUb.1 hUUb.2 le_rfl
  have hSPu : (if PU.2 > 0 then PU.1 / (PU.2 + 0) else 0) = 1 := by
    linarith [hPUr.2, hUUr.2, hPUr.1, hUUr.1]
  have hSUu : (if UU.2 > 0 then UU.1 / (UU.2 + 0) else 0) = 1 := by
    linarith [hPUr.2, hUUr.2, hPUr.1, hUUr.1]
  have hPUpos : PU.2 > 0 := by
    by_contra hneg
    rw [if_neg hneg] at hSPu
    norm_num at hSPu
  have hPUeq : PU.1 = PU.2 := by
    rw [if_pos hPUpos, add_zero, div_eq_iff (ne_of_gt hPUpos)] at hSPu
    linarith [hSPu]
  have hUUpos : UU.2 > 0 := by
    by_contra hneg
    rw [if_neg hneg] at hSUu
    norm_num at hSUu
  have hUUeq : UU.1 = UU.2 := by
    rw [if_pos hUUpos, add_zero, div_eq_iff (ne_of_gt hUUpos)] at hSUu
    linarith [hSUu]
  -- positional: every zipped pair has atomic similarity 1
  have hzip1 : ∀ pr ∈ x.2.zip y.2, simC pr.1 pr.2 = 1 := by
    have hper := per_term_eq
      (fun pr : String × String => getD (uniformWeights x.2) pr.1 0 *
        getD (uniformWeights y.2) pr.2 0 * simC pr.1 pr.2)
      (fun pr : String × String => getD (uniformWeights x.2) pr.1 0 *
        getD (uniformWeights y.2) pr.2 0)
      (fun pr hpr => by
        obtain ⟨p1, p2⟩ := pr
        obtain ⟨hp1, hp2⟩ := List.of_mem_zip hpr
        have himp : (0:ℚ) ≤ getD (uniformWeights x.2) p1 0 *
            getD (uniformWeights y.2) p2 0 := by
          rw [uniform_getD hp1, uniform_getD hp2]; norm_num
        exact mul_le_of_le_one_right himp (hsim p1 p2).2)
      (by
        have h1 := congrArg Prod.fst (posAccum_eq simC (uniformWeights x.2)
          (uniformWeights y.2) x.2 y.2)
        have h2 := congrArg Prod.snd (posAccum_eq simC (uniformWeights x.2)
          (uniformWeights y.2) x.2 y.2)
        simp only at h1 h2
        rw [← hPU] at h1 h2
        rw [← h1, ← h2]
        exact hPUeq)
    intro pr hpr
    obtain ⟨p1, p2⟩ := pr
    have h := hper (p1, p2) hpr
    obtain ⟨hp1, hp2⟩ := List.of_mem_zip hpr
    simp only at h ⊢
    rw [uniform_getD hp1, uniform_getD hp2] at h
    simpa using h
  have hzipne : x.2.zip y.2 ≠ [] := by
    intro hz
    have h2 := congrArg Prod.snd (posAccum_eq simC (uniformWeights x.2)
      (uniformWeights y.2) x.2 y.2)
    simp only at h2
    rw [← hPU, hz] at h2
    simp at h2
    rw [h2] at hPUpos
    norm_num at hPUpos
  -- unordered: per-argument best matches are perfect or inert
  have hUUper : ∀ a1 ∈ x.2,
      (bestMatchFold simC (getD (uniformWeights x.2) a1 0) (uniformWeights y.2) a1 y.2).1 *
        (bestMatchFold simC (getD (uniformWeights x.2) a1 0) (uniformWeights y.2) a1 y.2).2 =
      (bestMatchFold simC (getD (uniformWeights x.2) a1 0) (uniformWeights y.2) a1 y.2).2 := by
    refine per_term_eq _ _ ?_ ?_
    · intro a1 ha1
      have hb := bestMatchFold_bounds simC (getD (uniformWeights x.2) a1 0)
        (uniformWeights y.2) a1 y.2 hsim (by rw [uniform_getD ha1]; norm_num)
        (uniformWeights_nonneg _)
      exact mul_le_of_le_one_left hb.2.2 hb.2.1
    · have h1 := congrArg Prod.fst (unordAccum_eq simC (uniformWeights x.2)
        (uniformWeights y.2) x.2 y.2)
      have h2 := congrArg Prod.snd (unordAccum_eq simC (uniformWeights x.2)
        (uniformWeights y.2) x.2 y.2)
      simp only at h1 h2
      rw [← hUU] at h1 h2
      rw [← h1, ← h2]
      exact hUUeq
  have hUUwit : ∃ a1 ∈ x.2, 0 <
      (bestMatchFold simC (getD (uniformWeights x.2) a1 0) (uniformWeights y.2) a1 y.2).2 := by
    have h2 := congrArg Prod.snd (unordAccum_eq simC (uniformWeights x.2)
      (uniformWeights y.2) x.2 y.2)
    simp only at h2
    rw [← hUU] at h2
    rw [h2] at hUUpos
    obtain ⟨v, hv, hvpos⟩ := exists_pos_of_sum_pos hUUpos
    obtain ⟨a1, ha1, rfl⟩ := List.mem_map.mp hv
    exact ⟨a1, ha1, hvpos⟩
  -- Step 3: the weighted argument score is 1.
  have hwPU : posAccum simC mc mc x.2 y.2 =
      (((x.2.zip y.2).map (fun pr => getD mc pr.1 0 * getD mc pr.2 0)).sum,
       ((x.2.zip y.2).map (fun pr => getD mc pr.1 0 * getD mc pr.2 0)).sum) := by
    rw [posAccum_eq]
    have h : (x.2.zip y.2).map (fun pr => getD mc pr.1 0 * getD mc pr.2 0 * simC pr.1 pr.2) =
        (x.2.zip y.2).map (fun pr => getD mc pr.1 0 * getD mc pr.2 0) :=
      List.map_congr_left (fun pr hpr => by rw [hzip1 pr hpr, mul_one])
    rw [h]
  have hwmasspos : 0 < ((x.2.zip y.2).map (fun pr => getD mc pr.1 0 * getD mc pr.2 0)).sum := by
    obtain ⟨pr0, hpr0⟩ := List.exists_mem_of_ne_nil _ hzipne
    have hmem : getD mc pr0.1 0 * getD mc pr0.2 0 ∈
        (x.2.zip y.2).map (fun pr => getD mc pr.1 0 * getD mc pr.2 0) :=
      List.mem_map.mpr ⟨pr0, hpr0, rfl⟩
    have hnn : ∀ v ∈ (x.2.zip y.2).map (fun pr => getD mc pr.1 0 * getD mc pr.2 0), 0 ≤ v := by
      intro v hv
      obtain ⟨pr, hpr, rfl⟩ := List.mem_map.mp hv
      obtain ⟨p1, p2⟩ := pr
      obtain ⟨hp1, hp2⟩ := List.of_mem_zip hpr
      exact le_of_lt (mul_pos (hcx p1 hp1) (hcy p2 hp2))
    refine sum_pos_of_mem hnn hmem ?_
    obtain ⟨p1, p2⟩ := pr0
    obtain ⟨hp1, hp2⟩ := List.of_mem_zip hpr0
    exact mul_pos (hcx p1 hp1) (hcy p2 hp2)
  have hwUUterm : ∀ a1 ∈ x.2,
      (bestMatchFold simC (getD mc a1 0) mc a1 y.2).1 *
        (bestMatchFold simC (getD mc a1 0) mc a1 y.2).2 =
      (bestMatchFold simC (getD mc a1 0) mc a1 y.2).2 := by
    intro a1 ha1
    have hpar := bestMatchFold_fst_parallel simC (getD (uniformWeights x.2) a1 0)
      (getD mc a1 0) (uniformWeights y.2) mc a1 y.2
    by_cases hz : (bestMatchFold simC (getD (uniformWeights x.2) a1 0)
        (uniformWeights y.2) a1 y.2).2 = 0
    · -- no flat update at all: the flat fold is (0,0), hence so is the weighted one
      have hfz : (bestMatchFold simC (getD (uniformWeights x.2) a1 0)
          (uniformWeights y.2) a1 y.2).1 = 0 := by
        rcases bestMatchFold_cases simC (getD (uniformWeights x.2) a1 0)
            (uniformWeights y.2) a1 y.2 with h | ⟨y', hy', h⟩
        · rw [h]
        · rw [h] at hz
          simp only at hz
          rw [uniform_getD ha1, uniform_getD hy'] at hz
          norm_num at hz
      have hwz1 : (bestMatchFold simC (getD mc a1 0) mc a1 y.2).1 = 0 := by
        rw [← hpar, hfz]
      have hwz2 := bestMatchFold_snd_zero simC (getD mc a1 0) mc a1 y.2
        (fun a b => (hsim a b).1) hwz1
      rw [hwz1, hwz2, mul_zero]
    · have h1 : (bestMatchFold simC (getD (uniformWeights x.2) a1 0)
          (uniformWeights y.2) a1 y.2).1 = 1 :=
        mul_right_cancel₀ hz (by rw [hUUper a1 ha1, one_mul])
      rw [← hpar, h1, one_mul]
  have hwUUwit : ∃ a1 ∈ x.2, 0 < (bestMatchFold simC (getD mc a1 0) mc a1 y.2).2 := by
    obtain ⟨a1, ha1, hpos⟩ := hUUwit
    refine ⟨a1, ha1, ?_⟩
    have hpar := bestMatchFold_fst_parallel simC (getD (uniformWeights x.2) a1 0)
      (getD mc a1 0) (uniformWeights y.2) mc a1 y.2
    rcases bestMatchFold_cases simC (getD mc a1 0) mc a1 y.2 with h | ⟨y', hy', h⟩
    · -- weighted fold empty means flat best similarity 0, so flat importance 0
      have hw1 : (bestMatchFold simC (getD mc a1 0) mc a1 y.2).1 = 0 := by rw [h]
      have hf1 : (bestMatchFold simC (getD (uniformWeights x.2) a1 0)
          (uniformWeights y.2) a1 y.2).1 = 0 := by rw [hpar, hw1]
      have hf2 := bestMatchFold_snd_zero simC (getD (uniformWeights x.2) a1 0)
        (uniformWeights y.2) a1 y.2 (fun a b => (hsim a b).1) hf1
      rw [hf2] at hpos
      norm_num at hpos
    · rw [h]
      exact mul_pos (hcx a1 ha1) (hcy y' hy')
  have hwUUsnd_nonneg : ∀ a1 ∈ x.2, 0 ≤ (bestMatchFold simC (getD mc a1 0) mc a1 y.2).2 := by
    intro a1 ha1
    rcases bestMatchFold_cases simC (getD mc a1 0) mc a1 y.2 with h | ⟨y', hy', h⟩
    · rw [h]
    · rw [h]
      exact le_of_lt (mul_pos (hcx a1 ha1) (hcy y' hy'))
  have hwUmass : 0 < (x.2.map (fun a1 => (bestMatchFold simC (getD mc a1 0) mc a1 y.2).2)).sum := by
    obtain ⟨a1, ha1, hpos⟩ := hwUUwit
    refine sum_pos_of_mem ?_ (List.mem_map.mpr ⟨a1, ha1, rfl⟩) hpos
    intro v hv
    obtain ⟨a2, ha2, rfl⟩ := List.mem_map.mp hv
    exact hwUUsnd_nonneg a2 ha2
  have hsaw : pointwise_similarity_weighted x.2 y.2 simC mc mc (8/10) (2/10) 0 = 1 := by
    simp only [pointwise_similarity_weighted, List.isEmpty_eq_false.mpr hx2,
      List.isEmpty_eq_false.mpr hy2, Bool.or_self, Bool.false_eq_true, if_false]
    rw [hwPU]
    simp only
    rw [if_pos hwmasspos, add_zero,
      div_self (ne_of_gt hwmasspos)]
    rw [unordAccum_eq]
    have hnum : x.2.map (fun a1 => (bestMatchFold simC (getD mc a1 0) mc a1 y.2).1 *
        (bestMatchFold simC (getD mc a1 0) mc a1 y.2).2) =
        x.2.map (fun a1 => (bestMatchFold simC (getD mc a1 0) mc a1 y.2).2) :=
      List.map_congr_left hwUUterm
    rw [hnum]
    simp only
    rw [if_pos hwUmass, add_zero, div_self (ne_of_gt hwUmass)]
    norm_num
  -- Step 4: assemble the weighted literal score.
  have hia : 0 ≤ impArgsTotal mc x.2 y.2 := by
    unfold impArgsTotal
    refine List.sum_nonneg ?_
    intro v hv
    obtain ⟨a1, ha1, rfl⟩ := List.mem_map.mp hv
    refine List.sum_nonneg ?_
    intro w hw
    obtain ⟨a2, ha2, rfl⟩ := List.mem_map.mp hw
    exact le_of_lt (mul_pos (hcx a1 ha1) (hcy a2 ha2))
  have hip : 0 < getD mp x.1 0 * getD mp y.1 0 := mul_pos hpx hpy
  simp only [simLiteral]
  rw [hsp, hsaw]
  have hdenpos : 0 < getD mp x.1 0 * getD mp y.1 0 + impArgsTotal mc x.2 y.2 := by
    linarith
  rw [if_pos hdenpos, one_mul, one_mul, add_zero,
    div_self (ne_of_gt hdenpos)]

/-- A flat-perfect clause pair is also perfect under the weighted rescoring
with `agg = max`, any `alpha`, `beta`, `p`, positive weights on the occurring
predicates/constants and zero correction. -/
theorem weightedClauseSim_eq_one_of_flat (simC : String → String → ℚ)
    (mp mc : List (String × ℚ)) (ps : ClauseParams) (c1 c2 : Clause)
    (hsim : ∀ a b, 0 ≤ simC a b ∧ simC a b ≤ 1)
    (hmp_nn : ∀ kv ∈ mp, 0 ≤ kv.2) (hmc_nn : ∀ kv ∈ mc, 0 ≤ kv.2)
    (hp1 : ∀ l ∈ c1, 0 < getD mp l.1 0) (hp2 : ∀ l ∈ c2, 0 < getD mp l.1 0)
    (hc1 : ∀ l ∈ c1, ∀ a ∈ l.2, 0 < getD mc a 0)
    (hc2 : ∀ l ∈ c2, ∀ a ∈ l.2, 0 < getD mc a 0)
    (hagg : ps.agg = agg_max)
    (hflat : flatClauseSim simC c1 c2 = 1) :
    weightedClauseSim simC mp mc 0 ps c1 c2 = 1 := by
  obtain ⟨h1, h2, hxy, hyx⟩ := flat_one_memberships simC c1 c2 hsim hflat
  have hwb : ∀ x y : Literal, 0 ≤ simLiteral simC mp mc 0 x y ∧
      simLiteral simC mp mc 0 x y ≤ 1 :=
    fun x y => simLiteral_bounds simC mp mc 0 x y hsim hmp_nn hmc_nn le_rfl
  have hm1 : ∀ x ∈ c1, membership (simLiteral simC mp mc 0) ps.p agg_max x c2 = 1 := by
    intro x hx
    obtain ⟨y, hy, hfxy⟩ := hxy x hx
    have hw1 : simLiteral simC mp mc 0 x y = 1 :=
      simLiteral_eq_one_of_flat simC mp mc x y hsim (hp1 x hx) (hp2 y hy)
        (hc1 x hx) (hc2 y hy) hfxy
    unfold membership
    refine agg_max_eq_one ?_ ?_
    · have : simLiteral simC mp mc 0 x y ^ ps.p = 1 := by rw [hw1, one_pow]
      rw [← this]
      exact List.mem_map.mpr ⟨y, hy, rfl⟩
    · intro s hs
      obtain ⟨y', _, rfl⟩ := List.mem_map.mp hs
      exact pow_le_one₀ (hwb x y').1 (hwb x y').2
  have hm2 : ∀ y ∈ c2, membership (simLiteral simC mp mc 0) ps.p agg_max y c1 = 1 := by
    intro y hy
    obtain ⟨x, hx, hfyx⟩ := hyx y hy
    have hw1 : simLiteral simC mp mc 0 y x = 1 :=
      simLiteral_eq_one_of_flat simC mp mc y x hsim (hp2 y hy) (hp1 x hx)
        (hc2 y hy) (hc1 x hx) hfyx
    unfold membership
    refine agg_max_eq_one ?_ ?_
    · have : simLiteral simC mp mc 0 y x ^ ps.p = 1 := by rw [hw1, one_pow]
      rw [← this]
      exact List.mem_map.mpr ⟨x, hx, rfl⟩
    · intro s hs
      obtain ⟨x', _, rfl⟩ := List.mem_map.mp hs
      exact pow_le_one₀ (hwb y x').1 (hwb y x').2
  have hlen1 : (0 : ℚ) < c1.length := by
    cases c1 with
    | nil => exact absurd rfl h1
    | cons a t =>
      rw [List.length_cons]
      push_cast
      positivity
  have hlen2 : (0 : ℚ) < c2.length := by
    cases c2 with
    | nil => exact absurd rfl h2
    | cons a t =>
      rw [List.length_cons]
      push_cast
      positivity
  have hmap1 : c1.map (fun x => membership (simLiteral simC mp mc 0) ps.p agg_max x c2) =
      c1.map (fun _ => (1 : ℚ)) := List.map_congr_left hm1
  have hmap2 : c2.map (fun y => membership (simLiteral simC mp mc 0) ps.p agg_max y c1) =
      c2.map (fun _ => (1 : ℚ)) := List.map_congr_left hm2
  have hzsum1 : ((c1.map (fun _ => (1:ℚ))).map (fun s => 1 - s)).sum = 0 := by
    refine List.sum_eq_zero ?_
    intro v hv
    rw [List.map_map] at hv
    obtain ⟨l, _, rfl⟩ := List.mem_map.mp hv
    simp
  have hzsum2 : ((c2.map (fun _ => (1:ℚ))).map (fun s => 1 - s)).sum = 0 := by
    refine List.sum_eq_zero ?_
    intro v hv
    rw [List.map_map] at hv
    obtain ⟨l, _, rfl⟩ := List.mem_map.mp hv
    simp
  simp only [weightedClauseSim, generalized_tversky_similarity, hagg]
  rw [List.isEmpty_eq_false.mpr h1, List.isEmpty_eq_false.mpr h2]
  simp only [Bool.or_self, Bool.false_eq_true, if_false]
  rw [hmap1, hmap2, hzsum1, hzsum2, sum_map_one, sum_map_one]
  have hapos : (0 : ℚ) < ((c1.length : ℚ) + c2.length) / 2 := by positivity
  have hd : ((c1.length : ℚ) + c2.length) / 2 + ps.alpha * 0 + ps.beta * 0 =
      ((c1.length : ℚ) + c2.length) / 2 := by ring
  rw [hd, if_pos hapos, div_self (ne_of_gt hapos)]

theorem mem_insertKey_iff {l : List (Clause × Clause)} {k x : Clause × Clause} :
    x ∈ insertKey l k ↔ x ∈ l ∨ x = k := by
  unfold insertKey
  split
  · rename_i hk
    constructor
    · exact Or.inl
    · rintro (h | rfl)
      · exact h
      · exact hk
  · simp [List.mem_append]

theorem mem_foldl_insert_iff (f : Clause → Clause × Clause) (l : List Clause)
    (init : List (Clause × Clause)) (x : Clause × Clause) :
    x ∈ l.foldl (fun acc c => insertKey acc (f c)) init ↔
      x ∈ init ∨ ∃ c ∈ l, x = f c := by
  induction l generalizing init with
  | nil => simp
  | cons c cs ih =>
    rw [List.foldl_cons, ih, mem_insertKey_iff]
    constructor
    · rintro ((h | h) | ⟨c', hc', h⟩)
      · exact Or.inl h
      · exact Or.inr ⟨c, by simp, h⟩
      · exact Or.inr ⟨c', by simp [hc'], h⟩
    · rintro (h | ⟨c', hc', h⟩)
      · exact Or.inl (Or.inl h)
      · rcases List.mem_cons.mp hc' with rfl | hc''
        · exact Or.inl (Or.inr h)
        · exact Or.inr ⟨c', hc'', h⟩

/-- When comparing a clause list with itself, every correspondence pair has
both components in the list and a perfect flat score. -/
theorem bestMatches_flat_one (flatSim : Clause → Clause → ℚ) (l : List Clause)
    (hl : l ≠ [])
    (hself : ∀ c ∈ l, flatSim c c = 1)
    (hle : ∀ c1 ∈ l, ∀ c2 ∈ l, flatSim c1 c2 ≤ 1) :
    ∀ pr ∈ bestMatches flatSim l l, pr.1 ∈ l ∧ pr.2 ∈ l ∧ flatSim pr.1 pr.2 = 1 := by
  obtain ⟨a, r, rfl⟩ := List.exists_cons_of_ne_nil hl
  intro pr hpr
  unfold bestMatches at hpr
  rw [mem_foldl_insert_iff] at hpr
  rcases hpr with hpr | ⟨c2, hc2, rfl⟩
  · rw [mem_foldl_insert_iff] at hpr
    rcases hpr with hpr | ⟨c1, hc1, rfl⟩
    · cases hpr
    · have hmem := maxBy_mem (fun c2 => flatSim c1 c2) a r
      refine ⟨hc1, hmem, ?_⟩
      have hge := le_key_maxBy (fun c2 => flatSim c1 c2) a r c1 hc1
      have h1 : flatSim c1 c1 = 1 := hself c1 hc1
      have h2 := hle c1 hc1 _ hmem
      simp only at hge h2 ⊢
      linarith [hge, h1 ▸ hge]
  · have hmem := maxBy_mem (fun c1 => flatSim c1 c2) a r
    refine ⟨hmem, hc2, ?_⟩
    have hge := le_key_maxBy (fun c1 => flatSim c1 c2) a r c2 hc2
    have h1 : flatSim c2 c2 = 1 := hself c2 hc2
    have h2 := hle _ hmem c2 hc2
    simp only at hge h2 ⊢
    linarith [hge, h1 ▸ hge]

theorem bestMatches_ne_nil (flatSim : Clause → Clause → ℚ) (l1 l2 : List Clause)
    (h1 : l1 ≠ []) (h2 : l2 ≠ []) : bestMatches flatSim l1 l2 ≠ [] := by
  obtain ⟨a1, r1, rfl⟩ := List.exists_cons_of_ne_nil h1
  obtain ⟨a2, r2, rfl⟩ := List.exists_cons_of_ne_nil h2
  have hm : (a1, maxBy (fun c2 => flatSim a1 c2) a2 r2) ∈
      bestMatches flatSim (a1 :: r1) (a2 :: r2) := by
    unfold bestMatches
    exact mem_foldl_insert_mono _ _ _
      (mem_foldl_insert (fun c1 => (c1, maxBy (fun c2 => flatSim c1 c2) a2 r2))
        (a1 :: r1) [] (by simp))
  exact List.ne_nil_of_mem hm

/-- Claim C3 counterexample: comparing the empty formula to itself yields
`0.0`, not `1.0`. -/
theorem C3_identity_cex :
    simFormulaSet simStub [] [] [] [] [] [] [] [] (some ⟨1/2, 1/2, 1, agg_max⟩) = .ok 0 ∧
    simFormulaSet simStub [] [] [] [] [] [] [] [] (some ⟨1/2, 1/2, 1, agg_max⟩) ≠ .ok 1 := by
  have h : simFormulaSet simStub [] [] [] [] [] [] [] []
      (some ⟨1/2, 1/2, 1, agg_max⟩) = .ok 0 := by
    simp [simFormulaSet, sortClauses_nil]
  exact ⟨h, by rw [h]; simp⟩

/-- Claim C3 (corrected): comparing a formula with itself (same weight maps
on both sides) yields final score exactly `1`, and every matched clause pair
— and inside it every literal — scores exactly `1`, provided the formula
and its clauses and argument lists are non-empty, the atomic similarity is
reflexive and `[0,1]`-bounded, the clause-level aggregation is `max`, the
occurring predicate/constant weights are positive (the maps non-negative),
the effective clause weights are positive, and each side's predicate+constant
budget sums to `1` (so the correction term is `0`).  The empty formula (see
the counterexample) scores `0`, not `1`. -/
theorem C3_identity_amended (simC : String → String → ℚ) (F : Formula)
    (cw : List (Clause × ℚ)) (pw cwt : List (String × ℚ)) (alpha beta : ℚ) (p : ℕ)
    (hF : F ≠ [])
    (hclause : ∀ c ∈ F, c ≠ [])
    (hargs : ∀ c ∈ F, ∀ l ∈ c, l.2 ≠ [])
    (hsim : ∀ a b, 0 ≤ simC a b ∧ simC a b ≤ 1)
    (hrefl : ∀ a, simC a a = 1)
    (hpw_nn : ∀ kv ∈ pw, 0 ≤ kv.2) (hct_nn : ∀ kv ∈ cwt, 0 ≤ kv.2)
    (hpw_pos : ∀ c ∈ F, ∀ l ∈ c, 0 < getD pw l.1 0)
    (hct_pos : ∀ c ∈ F, ∀ l ∈ c, ∀ a ∈ l.2, 0 < getD cwt a 0)
    (hcw_pos : ∀ c ∈ F, 0 < getD cw c 1)
    (hbudget : sumValues pw + sumValues cwt = 1) :
    simFormulaSet simC F F cw cw pw pw cwt cwt (some ⟨alpha, beta, p, agg_max⟩) = .ok 1 ∧
    ∀ pr ∈ bestMatches (flatClauseSim simC) (sortClauses F) (sortClauses F),
      weightedClauseSim simC (mergeDicts pw pw) (mergeDicts cwt cwt)
        (diffOf pw pw cwt cwt) ⟨alpha, beta, p, agg_max⟩ pr.1 pr.2 = 1 ∧
      (∀ x ∈ pr.1, ∃ y ∈ pr.2, simLiteral simC (mergeDicts pw pw) (mergeDicts cwt cwt)
        (diffOf pw pw cwt cwt) x y = 1) ∧
      (∀ y ∈ pr.2, ∃ x ∈ pr.1, simLiteral simC (mergeDicts pw pw) (mergeDicts cwt cwt)
        (diffOf pw pw cwt cwt) y x = 1) := by
  have hdiff0 : diffOf pw pw cwt cwt = 0 := by
    simp only [diffOf]
    have h : 2 - (sumValues pw + sumValues pw) - (sumValues cwt + sumValues cwt) = 0 := by
      linarith
    rw [h]
    norm_num
  have hmp_nn := mergeDicts_nonneg pw pw hpw_nn hpw_nn
  have hmc_nn := mergeDicts_nonneg cwt cwt hct_nn hct_nn
  have hlne : sortClauses F ≠ [] := fun h => hF (sortClauses_eq_nil_iff.mp h)
  have hmemF : ∀ c ∈ sortClauses F, c ∈ F := fun c hc => mem_sortClauses.mp hc
  have hflat_self : ∀ c ∈ sortClauses F, flatClauseSim simC c c = 1 := fun c hc =>
    flatClauseSim_self simC c (hclause c (hmemF c hc)) (hargs c (hmemF c hc)) hsim hrefl
  have hflat_le : ∀ c1 ∈ sortClauses F, ∀ c2 ∈ sortClauses F,
      flatClauseSim simC c1 c2 ≤ 1 := fun c1 _ c2 _ =>
    (tversky_bounds c1 c2 _ 1 1 1 agg_max
      (fun a b => simLiteral_flat_bounds simC a b 0 hsim le_rfl)
      agg_max_bounded (by norm_num) (by norm_num)).2
  have hbm := bestMatches_flat_one (flatClauseSim simC) (sortClauses F) hlne
    hflat_self hflat_le
  -- per-pair facts
  have hpair : ∀ pr ∈ bestMatches (flatClauseSim simC) (sortClauses F) (sortClauses F),
      weightedClauseSim simC (mergeDicts pw pw) (mergeDicts cwt cwt)
        (diffOf pw pw cwt cwt) ⟨alpha, beta, p, agg_max⟩ pr.1 pr.2 = 1 ∧
      (∀ x ∈ pr.1, ∃ y ∈ pr.2, simLiteral simC (mergeDicts pw pw) (mergeDicts cwt cwt)
        (diffOf pw pw cwt cwt) x y = 1) ∧
      (∀ y ∈ pr.2, ∃ x ∈ pr.1, simLiteral simC (mergeDicts pw pw) (mergeDicts cwt cwt)
        (diffOf pw pw cwt cwt) y x = 1) := by
    intro pr hpr
    obtain ⟨hm1, hm2, hfl1⟩ := hbm pr hpr
    have hF1 := hmemF pr.1 hm1
    have hF2 := hmemF pr.2 hm2
    have hp1 : ∀ l ∈ pr.1, 0 < getD (mergeDicts pw pw) l.1 0 := fun l hl => by
      rw [getD_self_merge]; exact hpw_pos _ hF1 l hl
    have hp2 : ∀ l ∈ pr.2, 0 < getD (mergeDicts pw pw) l.1 0 := fun l hl => by
      rw [getD_self_merge]; exact hpw_pos _ hF2 l hl
    have hc1 : ∀ l ∈ pr.1, ∀ a ∈ l.2, 0 < getD (mergeDicts cwt cwt) a 0 :=
      fun l hl a ha => by
        rw [getD_self_merge]; exact hct_pos _ hF1 l hl a ha
    have hc2 : ∀ l ∈ pr.2, ∀ a ∈ l.2, 0 < getD (mergeDicts cwt cwt) a 0 :=
      fun l hl a ha => by
        rw [getD_self_merge]; exact hct_pos _ hF2 l hl a ha
    obtain ⟨-, -, hxy, hyx⟩ := flat_one_memberships simC pr.1 pr.2 hsim hfl1
    rw [hdiff0]
    refine ⟨?_, ?_, ?_⟩
    · exact weightedClauseSim_eq_one_of_flat simC (mergeDicts pw pw) (mergeDicts cwt cwt)
        ⟨alpha, beta, p, agg_max⟩ pr.1 pr.2 hsim hmp_nn hmc_nn hp1 hp2 hc1 hc2 rfl hfl1
    · intro x hx
      obtain ⟨y, hy, hfxy⟩ := hxy x hx
      exact ⟨y, hy, simLiteral_eq_one_of_flat simC (mergeDicts pw pw) (mergeDicts cwt cwt)
        x y hsim (hp1 x hx) (hp2 y hy) (hc1 x hx) (hc2 y hy) hfxy⟩
    · intro y hy
      obtain ⟨x, hx, hfyx⟩ := hyx y hy
      exact ⟨x, hx, simLiteral_eq_one_of_flat simC (mergeDicts pw pw) (mergeDicts cwt cwt)
        y x hsim (hp2 y hy) (hp1 x hx) (hc2 y hy) (hc1 x hx) hfyx⟩
  refine ⟨?_, hpair⟩
  -- final score
  have hE : (sortClauses F).isEmpty = false := List.isEmpty_eq_false.mpr hlne
  simp only [simFormulaSet, hE, Bool.false_eq_true, if_false]
  have hws : (bestMatches (flatClauseSim simC) (sortClauses F) (sortClauses F)).map
      (fun pr => (weightedClauseSim simC (mergeDicts pw pw) (mergeDicts cwt cwt)
          (diffOf pw pw cwt cwt) ⟨alpha, beta, p, agg_max⟩ pr.1 pr.2,
        (getD cw pr.1 1 + getD cw pr.2 1) / 2)) =
      (bestMatches (flatClauseSim simC) (sortClauses F) (sortClauses F)).map
      (fun pr => ((1 : ℚ), (getD cw pr.1 1 + getD cw pr.2 1) / 2)) :=
    List.map_congr_left (fun pr hpr => by rw [(hpair pr hpr).1])
  rw [hws]
  rw [List.map_map, List.map_map]
  have hone : ((fun sw : ℚ × ℚ => sw.1 * sw.2) ∘
      fun pr : Clause × Clause => ((1 : ℚ), (getD cw pr.1 1 + getD cw pr.2 1) / 2)) =
      fun pr : Clause × Clause => (getD cw pr.1 1 + getD cw pr.2 1) / 2 := by
    funext pr
    simp
  have htwo : ((fun sw : ℚ × ℚ => sw.2) ∘
      fun pr : Clause × Clause => ((1 : ℚ), (getD cw pr.1 1 + getD cw pr.2 1) / 2)) =
      fun pr : Clause × Clause => (getD cw pr.1 1 + getD cw pr.2 1) / 2 := by
    funext pr
    simp
  rw [hone, htwo]
  have hwpos : ∀ v ∈ (bestMatches (flatClauseSim simC) (sortClauses F)
      (sortClauses F)).map (fun pr => (getD cw pr.1 1 + getD cw pr.2 1) / 2), 0 < v := by
    intro v hv
    obtain ⟨pr, hpr, rfl⟩ := List.mem_map.mp hv
    obtain ⟨hm1, hm2, -⟩ := hbm pr hpr
    have h1 := hcw_pos _ (hmemF pr.1 hm1)
    have h2 := hcw_pos _ (hmemF pr.2 hm2)
    positivity
  have hbmne := bestMatches_ne_nil (flatClauseSim simC) (sortClauses F) (sortClauses F)
    hlne hlne
  have htot : 0 < ((bestMatches (flatClauseSim simC) (sortClauses F)
      (sortClauses F)).map (fun pr => (getD cw pr.1 1 + getD cw pr.2 1) / 2)).sum := by
    obtain ⟨pr0, hpr0⟩ := List.exists_mem_of_ne_nil _ hbmne
    exact sum_pos_of_mem (fun v hv => le_of_lt (hwpos v hv))
      (List.mem_map.mpr ⟨pr0, hpr0, rfl⟩)
      (hwpos _ (List.mem_map.mpr ⟨pr0, hpr0, rfl⟩))
  rw [if_pos htot, div_self (ne_of_gt htot)]

/-- Witness for C3 at a concrete input (one unit clause, budget 1/2 + 1/2). -/
theorem C3_identity_amended_witness :
    simFormulaSet simStub [[(("P", ["a"]) : Literal)]] [[(("P", ["a"]) : Literal)]]
      [] [] [("P", 1/2)] [("P", 1/2)] [("a", 1/2)] [("a", 1/2)]
      (some ⟨1/2, 1/2, 1, agg_max⟩) = .ok 1 :=
  (C3_identity_amended simStub [[("P", ["a"])]] [] [("P", 1/2)] [("a", 1/2)]
    (1/2) (1/2) 1
    (by simp)
    (by intro c hc; simp at hc; subst hc; simp)
    (by intro c hc l hl; simp at hc; subst hc; simp at hl; subst hl; simp)
    (by intro a b; simp only [simStub]; split <;> norm_num)
    (by intro a; simp [simStub])
    (by intro kv hkv; simp at hkv; subst hkv; norm_num)
    (by intro kv hkv; simp at hkv; subst hkv; norm_num)
    (by intro c hc l hl; simp at hc; subst hc; simp at hl; subst hl; norm_num [getD])
    (by intro c hc l hl a ha; simp at hc; subst hc; simp at hl; subst hl;
        simp at ha; subst ha; norm_num [getD])
    (by intro c hc; simp [getD])
    (by norm_num [sumValues])).1

/-! ### Symmetry infrastructure (Claim C1) -/

/-- With equal asymmetry coefficients, swapping the two sets leaves the
Tversky score unchanged (the `a` term is symmetrized, `b` and `c` trade
places, and the membership directions swap along with the sides). -/
theorem tversky_swap {γ : Type} (X Y : List γ) (sim : γ → γ → ℚ) (alpha : ℚ)
    (p : ℕ) (agg : List ℚ → ℚ) :
    generalized_tversky_similarity Y X sim alpha alpha p agg =
      generalized_tversky_similarity X Y sim alpha alpha p agg := by
  simp only [generalized_tversky_similarity]
  rw [Bool.or_comm]
  by_cases hE : (X.isEmpty || Y.isEmpty) = true
  · rw [if_pos hE, if_pos hE]
  · rw [if_neg hE, if_neg hE]
    set sX := (X.map (fun x => membership sim p agg x Y)).sum with hsX
    set sY := (Y.map (fun y => membership sim p agg y X)).sum with hsY
    set bX := ((X.map (fun x => membership sim p agg x Y)).map (fun s => 1 - s)).sum with hbX
    set bY := ((Y.map (fun y => membership sim p agg y X)).map (fun s => 1 - s)).sum with hbY
    rw [show (sY + sX) / 2 = (sX + sY) / 2 by ring,
      show (sX + sY) / 2 + alpha * bY + alpha * bX =
        (sX + sY) / 2 + alpha * bX + alpha * bY by ring]

/-- Swapping the clause pair in the weighted rescoring flips nothing when
`alpha = beta`. -/
theorem weightedClauseSim_swap (simC : String → String → ℚ)
    (mp mc : List (String × ℚ)) (diff : ℚ) (ps : ClauseParams)
    (halpha : ps.alpha = ps.beta) (c1 c2 : Clause) :
    weightedClauseSim simC mp mc diff ps c2 c1 =
      weightedClauseSim simC mp mc diff ps c1 c2 := by
  unfold weightedClauseSim
  rw [halpha]
  exact tversky_swap c1 c2 _ ps.beta ps.p ps.agg

theorem maxBy_congr {γ : Type} (key key' : γ → ℚ) (x : γ) (xs : List γ)
    (h : ∀ z, key z = key' z) : maxBy key x xs = maxBy key' x xs := by
  unfold maxBy
  exact foldl_fcongr _ _ _ _ (fun acc y => by rw [h y, h acc])

theorem insertKey_nodup {l : List (Clause × Clause)} {k : Clause × Clause}
    (h : l.Nodup) : (insertKey l k).Nodup := by
  unfold insertKey
  split
  · exact h
  · rename_i hk
    rw [List.nodup_append]
    exact ⟨h, List.nodup_singleton _, fun a ha hb => by
      rw [List.mem_singleton] at hb
      subst hb
      exact hk ha⟩

theorem foldl_insert_nodup (f : Clause → Clause × Clause) (l : List Clause)
    (init : List (Clause × Clause)) (h : init.Nodup) :
    (l.foldl (fun acc c => insertKey acc (f c)) init).Nodup := by
  induction l generalizing init with
  | nil => exact h
  | cons c cs ih => exact ih _ (insertKey_nodup h)

theorem bestMatches_nodup (flatSim : Clause → Clause → ℚ) (l1 l2 : List Clause) :
    (bestMatches flatSim l1 l2).Nodup := by
  unfold bestMatches
  cases l1 with
  | nil => exact List.nodup_nil
  | cons a1 r1 =>
    cases l2 with
    | nil => exact List.nodup_nil
    | cons a2 r2 =>
      exact foldl_insert_nodup _ _ _ (foldl_insert_nodup _ _ _ List.nodup_nil)

/-- Membership characterization of the correspondence. -/
theorem bestMatches_mem_iff (flatSim : Clause → Clause → ℚ) (a1 a2 : Clause)
    (r1 r2 : List Clause) (pr : Clause × Clause) :
    pr ∈ bestMatches flatSim (a1 :: r1) (a2 :: r2) ↔
      (∃ c1 ∈ a1 :: r1, pr = (c1, maxBy (fun c2 => flatSim c1 c2) a2 r2)) ∨
      (∃ c2 ∈ a2 :: r2, pr = (maxBy (fun c1 => flatSim c1 c2) a1 r1, c2)) := by
  unfold bestMatches
  rw [mem_foldl_insert_iff, mem_foldl_insert_iff]
  simp only [List.not_mem_nil, false_or]

/-- The swapped call's correspondence is exactly the transpose of the
original one. -/
theorem bestMatches_swap_mem (flatSim : Clause → Clause → ℚ)
    (a1 a2 : Clause) (r1 r2 : List Clause)
    (hsymm : ∀ c1 c2, flatSim c2 c1 = flatSim c1 c2) (pr : Clause × Clause) :
    pr ∈ bestMatches flatSim (a2 :: r2) (a1 :: r1) ↔
      (pr.2, pr.1) ∈ bestMatches flatSim (a1 :: r1) (a2 :: r2) := by
  rw [bestMatches_mem_iff, bestMatches_mem_iff]
  constructor
  · rintro (⟨c, hc, rfl⟩ | ⟨c, hc, rfl⟩)
    · refine Or.inr ⟨c, hc, ?_⟩
      rw [maxBy_congr (fun z => flatSim z c) (fun z => flatSim c z) a1 r1
        (fun z => hsymm c z)]
    · refine Or.inl ⟨c, hc, ?_⟩
      rw [maxBy_congr (fun z => flatSim c z) (fun z => flatSim z c) a2 r2
        (fun z => (hsymm c z).symm)]
  · rintro (⟨c, hc, hpr⟩ | ⟨c, hc, hpr⟩)
    · have h1 : pr.2 = c := congrArg Prod.fst hpr
      have h2 : pr.1 = maxBy (fun z => flatSim c z) a2 r2 := congrArg Prod.snd hpr
      refine Or.inr ⟨c, hc, ?_⟩
      rw [maxBy_congr (fun z => flatSim z c) (fun z => flatSim c z) a2 r2
        (fun z => hsymm c z)]
      exact Prod.ext h2 h1
    · have h1 : pr.2 = maxBy (fun z => flatSim z c) a1 r1 := congrArg Prod.fst hpr
      have h2 : pr.1 = c := congrArg Prod.snd hpr
      refine Or.inl ⟨c, hc, ?_⟩
      rw [maxBy_congr (fun z => flatSim c z) (fun z => flatSim z c) a1 r1
        (fun z => (hsymm c z).symm)]
      exact Prod.ext h2 h1

/-- The transposed correspondence, as a list, is a permutation of the
original one mapped through `Prod.swap`. -/
theorem bestMatches_swap_perm (flatSim : Clause → Clause → ℚ)
    (l1 l2 : List Clause) (h1 : l1 ≠ []) (h2 : l2 ≠ [])
    (hsymm : ∀ c1 c2, flatSim c2 c1 = flatSim c1 c2) :
    (bestMatches flatSim l2 l1).Perm
      ((bestMatches flatSim l1 l2).map Prod.swap) := by
  obtain ⟨a1, r1, rfl⟩ := List.exists_cons_of_ne_nil h1
  obtain ⟨a2, r2, rfl⟩ := List.exists_cons_of_ne_nil h2
  refine (List.perm_ext_iff_of_nodup (bestMatches_nodup _ _ _)
    ((bestMatches_nodup _ _ _).map Prod.swap_injective)).mpr ?_
  intro pr
  rw [bestMatches_swap_mem flatSim a1 a2 r1 r2 hsymm pr]
  constructor
  · intro h
    exact List.mem_map.mpr ⟨(pr.2, pr.1), h, rfl⟩
  · intro h
    obtain ⟨q, hq, hqe⟩ := List.mem_map.mp h
    have : q = (pr.2, pr.1) := by
      rw [← hqe]
      rfl
    rwa [this] at hq

/-- Claim C1 counterexample: with asymmetric clause-level coefficients
(`alpha = 1`, `beta = 0`) the final score is not symmetric — comparing
`{{P(a), Q(b)}}` with `{{P(a)}}` gives `1/2` one way and `1` the other,
although all weight maps are swapped consistently (they are equal). -/
theorem C1_symmetry_cex :
    simFormulaSet simStub [[(("P", ["a"]) : Literal), ("Q", ["b"])]]
      [[(("P", ["a"]) : Literal)]] [] []
      [("P", 1/5), ("Q", 1/5)] [("P", 1/5), ("Q", 1/5)]
      [("a", 3/10), ("b", 3/10)] [("a", 3/10), ("b", 3/10)]
      (some ⟨1, 0, 1, agg_max⟩) ≠
    simFormulaSet simStub [[(("P", ["a"]) : Literal)]]
      [[(("P", ["a"]) : Literal), ("Q", ["b"])]] [] []
      [("P", 1/5), ("Q", 1/5)] [("P", 1/5), ("Q", 1/5)]
      [("a", 3/10), ("b", 3/10)] [("a", 3/10), ("b", 3/10)]
      (some ⟨1, 0, 1, agg_max⟩) := by
  have h1 : simFormulaSet simStub [[(("P", ["a"]) : Literal), ("Q", ["b"])]]
      [[(("P", ["a"]) : Literal)]] [] []
      [("P", 1/5), ("Q", 1/5)] [("P", 1/5), ("Q", 1/5)]
      [("a", 3/10), ("b", 3/10)] [("a", 3/10), ("b", 3/10)]
      (some ⟨1, 0, 1, agg_max⟩) = .ok (1/2) := by
    simp +decide only [simFormulaSet, mergeDicts, diffOf, sumValues, sortClauses,
      clauseLe, safe_sort_clause, litListLt, litLt, argsLt, strLt, charListLt,
      List.insertionSort, List.orderedInsert, bestMatches, insertKey, maxBy,
      flatClauseSim, weightedClauseSim, generalized_tversky_similarity, membership,
      agg_max, simLiteral_flat, simLiteral, pointwise_similarity_weighted, posAccum,
      unordAccum, bestMatchFold, uniformWeights, impArgsTotal, getD, simStub,
      List.foldl, List.map, List.zip, List.zipWith, List.sum, List.isEmpty]
    norm_num
  have h2 : simFormulaSet simStub [[(("P", ["a"]) : Literal)]]
      [[(("P", ["a"]) : Literal), ("Q", ["b"])]] [] []
      [("P", 1/5), ("Q", 1/5)] [("P", 1/5), ("Q", 1/5)]
      [("a", 3/10), ("b", 3/10)] [("a", 3/10), ("b", 3/10)]
      (some ⟨1, 0, 1, agg_max⟩) = .ok 1 := by
    simp +decide only [simFormulaSet, mergeDicts, diffOf, sumValues, sortClauses,
      clauseLe, safe_sort_clause, litListLt, litLt, argsLt, strLt, charListLt,
      List.insertionSort, List.orderedInsert, bestMatches, insertKey, maxBy,
      flatClauseSim, weightedClauseSim, generalized_tversky_similarity, membership,
      agg_max, simLiteral_flat, simLiteral, pointwise_similarity_weighted, posAccum,
      unordAccum, bestMatchFold, uniformWeights, impArgsTotal, getD, simStub,
      List.foldl, List.map, List.zip, List.zipWith, List.sum, List.isEmpty]
    norm_num
  rw [h1, h2]
  simp only [ne_eq, Except.ok.injEq]
  norm_num

/-- Claim C1 (corrected): swapping the two sides (formulas and all per-side
weight maps swapped consistently) leaves the result of `simFormulaSet`
unchanged, provided the clause-level Tversky coefficients are equal
(`alpha = beta`) and the two sides' predicate/constant maps agree through
the merged lookup (automatic when shared keys carry equal values, as the
spec's step 2 assumes).  With `alpha ≠ beta` symmetry fails (see the
counterexample). -/
theorem C1_symmetry_amended (simC : String → String → ℚ) (F1 F2 : Formula)
    (cw1 cw2 : List (Clause × ℚ)) (pw1 pw2 cwt1 cwt2 : List (String × ℚ))
    (ps : ClauseParams)
    (halpha : ps.alpha = ps.beta)
    (hpcons : ∀ k, getD (mergeDicts pw2 pw1) k 0 = getD (mergeDicts pw1 pw2) k 0)
    (hccons : ∀ k, getD (mergeDicts cwt2 cwt1) k 0 = getD (mergeDicts cwt1 cwt2) k 0) :
    simFormulaSet simC F2 F1 cw2 cw1 pw2 pw1 cwt2 cwt1 (some ps) =
      simFormulaSet simC F1 F2 cw1 cw2 pw1 pw2 cwt1 cwt2 (some ps) := by
  have hdiff : diffOf pw2 pw1 cwt2 cwt1 = diffOf pw1 pw2 cwt1 cwt2 := by
    simp only [diffOf]
    rw [add_comm (sumValues pw2) (sumValues pw1),
      add_comm (sumValues cwt2) (sumValues cwt1)]
  have hflat_symm : ∀ c1 c2 : Clause,
      flatClauseSim simC c2 c1 = flatClauseSim simC c1 c2 := by
    intro c1 c2
    unfold flatClauseSim
    exact tversky_swap c1 c2 _ 1 1 agg_max
  have hscore : ∀ pr : Clause × Clause,
      weightedClauseSim simC (mergeDicts pw2 pw1) (mergeDicts cwt2 cwt1)
          (diffOf pw2 pw1 cwt2 cwt1) ps pr.2 pr.1 =
        weightedClauseSim simC (mergeDicts pw1 pw2) (mergeDicts cwt1 cwt2)
          (diffOf pw1 pw2 cwt1 cwt2) ps pr.1 pr.2 := by
    intro pr
    rw [hdiff]
    rw [weightedClauseSim_congr simC _ _ _ _ _ ps pr.2 pr.1 hpcons hccons]
    exact weightedClauseSim_swap simC _ _ _ ps halpha pr.1 pr.2
  simp only [simFormulaSet]
  cases hA : (sortClauses F1).isEmpty <;> cases hB : (sortClauses F2).isEmpty <;>
    simp only [hA, hB, Bool.false_eq_true, if_true, if_false]
  · -- both non-empty
    have h1 : sortClauses F1 ≠ [] := List.isEmpty_eq_false.mp hA
    have h2 : sortClauses F2 ≠ [] := List.isEmpty_eq_false.mp hB
    have hperm := bestMatches_swap_perm (flatClauseSim simC) (sortClauses F1)
      (sortClauses F2) h1 h2 hflat_symm
    have hfs : ((fun pr : Clause × Clause =>
        (weightedClauseSim simC (mergeDicts pw2 pw1) (mergeDicts cwt2 cwt1)
          (diffOf pw2 pw1 cwt2 cwt1) ps pr.1 pr.2,
         (getD cw2 pr.1 1 + getD cw1 pr.2 1) / 2)) ∘ Prod.swap) =
        (fun pr : Clause × Clause =>
        (weightedClauseSim simC (mergeDicts pw1 pw2) (mergeDicts cwt1 cwt2)
          (diffOf pw1 pw2 cwt1 cwt2) ps pr.1 pr.2,
         (getD cw1 pr.1 1 + getD cw2 pr.2 1) / 2)) := by
      funext pr
      simp only [Function.comp_apply, Prod.fst_swap, Prod.snd_swap]
      rw [hscore pr, add_comm (getD cw2 pr.2 1) (getD cw1 pr.1 1)]
    have hws : ((bestMatches (flatClauseSim simC) (sortClauses F2) (sortClauses F1)).map
        (fun pr : Clause × Clause =>
          (weightedClauseSim simC (mergeDicts pw2 pw1) (mergeDicts cwt2 cwt1)
            (diffOf pw2 pw1 cwt2 cwt1) ps pr.1 pr.2,
           (getD cw2 pr.1 1 + getD cw1 pr.2 1) / 2))).Perm
        ((bestMatches (flatClauseSim simC) (sortClauses F1) (sortClauses F2)).map
        (fun pr : Clause × Clause =>
          (weightedClauseSim simC (mergeDicts pw1 pw2) (mergeDicts cwt1 cwt2)
            (diffOf pw1 pw2 cwt1 cwt2) ps pr.1 pr.2,
           (getD cw1 pr.1 1 + getD cw2 pr.2 1) / 2))) := by
      refine (hperm.map _).trans ?_
      rw [List.map_map, hfs]
    rw [(hws.map (fun sw : ℚ × ℚ => sw.2)).sum_eq,
      (hws.map (fun sw : ℚ × ℚ => sw.1 * sw.2)).sum_eq]

/-- Witness for C1 at a concrete input (equal maps on both sides,
`alpha = beta`). -/
theorem C1_symmetry_amended_witness :
    simFormulaSet simStub [[(("Q", ["b"]) : Literal)]] [[(("P", ["a"]) : Literal)]]
      [] [] [("P", 1/2), ("Q", 1/2)] [("P", 1/2), ("Q", 1/2)]
      [("a", 1/2), ("b", 1/2)] [("a", 1/2), ("b", 1/2)] (some ⟨1/2, 1/2, 1, agg_max⟩) =
    simFormulaSet simStub [[(("P", ["a"]) : Literal)]] [[(("Q", ["b"]) : Literal)]]
      [] [] [("P", 1/2), ("Q", 1/2)] [("P", 1/2), ("Q", 1/2)]
      [("a", 1/2), ("b", 1/2)] [("a", 1/2), ("b", 1/2)] (some ⟨1/2, 1/2, 1, agg_max⟩) :=
  C1_symmetry_amended simStub [[("P", ["a"])]] [[("Q", ["b"])]] [] []
    [("P", 1/2), ("Q", 1/2)] [("P", 1/2), ("Q", 1/2)]
    [("a", 1/2), ("b", 1/2)] [("a", 1/2), ("b", 1/2)]
    ⟨1/2, 1/2, 1, agg_max⟩ rfl (fun _ => rfl) (fun _ => rfl)

end SimFOL
